import Mathlib

/-! # Onion address generator (`4_attack-tuning/genonion.go`)

A shallow embedding of the Go program that bulk-generates v2 and v3 onion
addresses, together with theorems about it.

Conventions of the embedding

* A Go `byte` is a `Nat` (below 256 for well-typed data); a `[]byte` is a `List Nat`.
  Where Go truncates a byte operation to 8 bits the model writes `% 256`.
* A Go `int` is an `Int`.
* Code that can stop the process returns `Except Fault α` next to the new state:
  `Fault.exit status msg` is `fmt.Printf(msg); os.Exit(status)`, `Fault.panic` is a
  run-time panic (index out of range, negative `make` length).
* The packages the program imports (`math/rand`, `crypto/ed25519`, `crypto/rand`,
  `golang.org/x/crypto/sha3`, `io/ioutil`, `path/filepath`) are not part of the
  repository; they are the fields of `Lib`.  `encoding/base32` and `bytes` are
  modelled after their documented behaviour (RFC 4648).
* `main` is modelled from the return of `flag.Parse()` on.  The goroutines it
  starts are recorded in launch order (`World.spawned`) and then run one after the
  other (`runWorkers`); `sync.WaitGroup` has no counterpart.
* No `int` operation of the program can overflow: the only ones are
  `numAddr % 5000`, `numAddr / 5000` and the loop increments below a bound.
-/

namespace GenOnion

/-! ## Faults, external packages, program state -/

/-- How a run of the program can stop early. -/
inductive Fault where
  /-- `fmt.Printf(msg)` followed by `os.Exit(status)`. -/
  | exit (status : Nat) (msg : String)
  /-- A Go run-time panic. -/
  | panic
  deriving DecidableEq

/-- The imported packages the program calls.  `ρ` is the state of the global
`math/rand` source, `κ` the state of `crypto/rand.Reader`. -/
structure Lib (ρ κ : Type) where
  /-- `mathrand.Intn(n)` on the global source: the number drawn and the new state. -/
  Intn : Int → ρ → Int × ρ
  /-- `ed25519.GenerateKey(cryptrand.Reader)`: `(pubKey, privKey)` or the error text. -/
  GenerateKey : κ → Except String (List Nat × List Nat) × κ
  /-- `sha3.Sum256`; its Go result type is `[32]byte`. -/
  Sum256 : List Nat → List Nat
  /-- The result type `[32]byte` of `sha3.Sum256`: 32 elements. -/
  Sum256_size : ∀ m, (Sum256 m).length = 32
  /-- The result type `[32]byte` of `sha3.Sum256`: every element is a byte. -/
  Sum256_byte : ∀ m, ∀ b ∈ Sum256 m, b < 256
  /-- `ioutil.WriteFile(path, data, 0644)` given the files written so far:
  `some e` when it returns the error `e`, `none` when it succeeds. -/
  WriteFileErr : List (String × List Nat) → String → List Nat → Option String
  /-- `filepath.Join(dir, name)`. -/
  Join : String → String → String

/-- The arguments of one `go worker(wg, workerID, onionVer, numAddrGen, outputDir)`. -/
structure Task where
  workerID : Int
  onionVer : Int
  numAddrGen : Int
  outputDir : String
  deriving DecidableEq

/-- The state the program reads and changes. -/
structure World (ρ κ : Type) where
  /-- State of the global `math/rand` source. -/
  rng : ρ
  /-- State of `crypto/rand.Reader`. -/
  entropy : κ
  /-- Files written by `ioutil.WriteFile` so far, oldest first: path and content. -/
  files : List (String × List Nat)
  /-- The `go worker(...)` statements executed so far, oldest first. -/
  spawned : List Task

/-! ## Go primitives -/

/-- The bytes of an ASCII string literal. -/
def bytesOf (s : String) : List Nat := s.toList.map Char.toNat

/-- The Go expression `make([]byte, n)`. -/
def make (n : Nat) : List Nat := List.replicate n 0

/-- The Go expression `xs[i]` for an `int` index: panics out of range. -/
def index (xs : List Nat) (i : Int) : Except Fault Nat :=
  if 0 ≤ i ∧ i < xs.length then .ok (xs.getD i.toNat 0) else .error .panic

/-- The Go statement `xs[i] = v`: panics out of range. -/
def assign (xs : List Nat) (i : Nat) (v : Nat) : Except Fault (List Nat) :=
  if i < xs.length then .ok (xs.set i v) else .error .panic

/-- The Go expression `xs[i:]`: panics when `i` exceeds the length. -/
def sliceFrom (xs : List Nat) (i : Nat) : Except Fault (List Nat) :=
  if i ≤ xs.length then .ok (xs.drop i) else .error .panic

/-- The Go builtin `copy(dst, src)`: the first `min (len dst) (len src)` elements of
`dst` are overwritten with those of `src`; the result is the new content of `dst`. -/
def copy (dst src : List Nat) : List Nat :=
  src.take dst.length ++ dst.drop src.length

/-- The Go statement `copy(dst[i:], src)`, giving the new content of `dst`. -/
def copyAt (dst : List Nat) (i : Nat) (src : List Nat) : Except Fault (List Nat) :=
  match sliceFrom dst i with
  | .error f => .error f
  | .ok tail => .ok (dst.take i ++ copy tail src)

/-! ## `genOnionV2` -/

/-- The Go variable `onionLenV2`. -/
def onionLenV2 : Nat := 16

/-- The Go array `allowedCharsV2`: `'a'..'z'`, `'2'..'7'`. -/
def allowedCharsV2 : List Nat :=
  [97, 98, 99, 100, 101, 102, 103, 104,
   105, 106, 107, 108, 109, 110, 111, 112,
   113, 114, 115, 116, 117, 118, 119, 120,
   121, 122, 50, 51, 52, 53, 54, 55]

/-- The loop of `genOnionV2` with `n` iterations left, at position `i`:
draw an index, write `allowedCharsV2[idx]` to `address[i]`. -/
def genOnionV2Loop {ρ κ : Type} (L : Lib ρ κ) :
    Nat → Nat → List Nat → ρ → Except Fault (List Nat) × ρ
  | 0, _, address, s => (.ok address, s)
  | n + 1, i, address, s =>
    match L.Intn (allowedCharsV2.length : Nat) s with
    | (idx, s1) =>
      match index allowedCharsV2 idx with
      | .error f => (.error f, s1)
      | .ok c =>
        match assign address i c with
        | .error f => (.error f, s1)
        | .ok address1 => genOnionV2Loop L n (i + 1) address1 s1

/-- The Go function `genOnionV2`. -/
def genOnionV2 {ρ κ : Type} (L : Lib ρ κ) (w : World ρ κ) :
    Except Fault (List Nat) × World ρ κ :=
  match genOnionV2Loop L onionLenV2 0 (make onionLenV2) w.rng with
  | (r, s) => (r, { w with rng := s })

/-! ## `encoding/base32` (standard alphabet, padded) and `bytes.ToLower` / `bytes.ToUpper` -/

/-- The alphabet of `base32.StdEncoding`: `'A'..'Z'`, `'2'..'7'` (RFC 4648). -/
def encodeStd : List Nat :=
  [65, 66, 67, 68, 69, 70, 71, 72,
   73, 74, 75, 76, 77, 78, 79, 80,
   81, 82, 83, 84, 85, 86, 87, 88,
   89, 90, 50, 51, 52, 53, 54, 55]

/-- The padding character `'='` of `base32.StdEncoding`. -/
def padChar : Nat := 61

/-- The eight 5-bit groups `b[0..7]` that `Encode` unpacks from one quantum
`s0 .. s4` of source bytes (missing bytes of a short final quantum are 0). -/
def unpack (s0 s1 s2 s3 s4 : Nat) : List Nat :=
  [ s0 >>> 3,
    ((s1 >>> 6) &&& 0x1F) ||| (((s0 <<< 2) % 256) &&& 0x1F),
    (s1 >>> 1) &&& 0x1F,
    ((s2 >>> 4) &&& 0x1F) ||| (((s1 <<< 4) % 256) &&& 0x1F),
    (s3 >>> 7) ||| (((s2 <<< 1) % 256) &&& 0x1F),
    (s3 >>> 2) &&& 0x1F,
    (s4 >>> 5) ||| (((s3 <<< 3) % 256) &&& 0x1F),
    s4 &&& 0x1F ]

/-- The symbol `enc.encode[b&31]` written for a 5-bit group. -/
def encodeSym (b : Nat) : Nat := encodeStd.getD (b &&& 31) 0

/-- The bytes `Encode` produces for a source: 8 symbols per 5 bytes, the final
short quantum padded with `'='`. -/
def encodeBytes : List Nat → List Nat
  | [] => []
  | [s0] => ((unpack s0 0 0 0 0).map encodeSym).take 2 ++ List.replicate 6 padChar
  | [s0, s1] => ((unpack s0 s1 0 0 0).map encodeSym).take 4 ++ List.replicate 4 padChar
  | [s0, s1, s2] => ((unpack s0 s1 s2 0 0).map encodeSym).take 5 ++ List.replicate 3 padChar
  | [s0, s1, s2, s3] => ((unpack s0 s1 s2 s3 0).map encodeSym).take 7 ++ List.replicate 1 padChar
  | s0 :: s1 :: s2 :: s3 :: s4 :: rest =>
    (unpack s0 s1 s2 s3 s4).map encodeSym ++ encodeBytes rest

/-- The call `base32.StdEncoding.Encode(dst, src)`, giving the new content of `dst`:
the encoding overwrites the front of `dst`; a `dst` that is too short panics. -/
def Encode (dst src : List Nat) : Except Fault (List Nat) :=
  if (encodeBytes src).length ≤ dst.length then
    .ok (encodeBytes src ++ dst.drop (encodeBytes src).length)
  else .error .panic

/-- The table `enc.decodeMap`: the 5-bit value of an alphabet symbol. -/
def decodeMap (c : Nat) : Option Nat :=
  if c ∈ encodeStd then some (encodeStd.indexOf c) else none

/-- The five bytes packed from eight 5-bit values. -/
def pack (v0 v1 v2 v3 v4 v5 v6 v7 : Nat) : List Nat :=
  [ ((v0 <<< 3) ||| (v1 >>> 2)) % 256,
    ((v1 <<< 6) ||| (v2 <<< 1) ||| (v3 >>> 4)) % 256,
    ((v3 <<< 4) ||| (v4 >>> 1)) % 256,
    ((v4 <<< 7) ||| (v5 <<< 2) ||| (v6 >>> 3)) % 256,
    ((v6 <<< 5) ||| v7) % 256 ]

/-- The 5-bit values of a run of symbols; `none` when one is not in the alphabet. -/
def decodeSyms : List Nat → Option (List Nat)
  | [] => some []
  | c :: cs =>
    match decodeMap c, decodeSyms cs with
    | some v, some vs => some (v :: vs)
    | _, _ => none

/-- Decoding of one 8-character quantum; padding is accepted in the last quantum
only, after 2, 4, 5 or 7 symbols. -/
def decodeQuantum (q : List Nat) (last : Bool) : Option (List Nat) :=
  let syms := q.takeWhile (fun c => c != padChar)
  let pads := q.dropWhile (fun c => c != padChar)
  if pads.all (fun c => c == padChar) ∧
      (syms.length = 8 ∨ (last = true ∧ syms.length ∈ [2, 4, 5, 7])) then
    match decodeSyms syms with
    | none => none
    | some vs =>
      match vs ++ List.replicate (8 - vs.length) 0 with
      | [v0, v1, v2, v3, v4, v5, v6, v7] =>
        some ((pack v0 v1 v2 v3 v4 v5 v6 v7).take (syms.length * 5 / 8))
      | _ => none
  else none

/-- Decoding of a text without newlines, quantum by quantum. -/
def decodeBytes : List Nat → Option (List Nat)
  | [] => some []
  | c0 :: c1 :: c2 :: c3 :: c4 :: c5 :: c6 :: c7 :: rest =>
    match decodeQuantum [c0, c1, c2, c3, c4, c5, c6, c7] rest.isEmpty with
    | none => none
    | some out =>
      match decodeBytes rest with
      | none => none
      | some outs => some (out ++ outs)
  | _ => none

/-- The call `base32.StdEncoding.DecodeString(s)`: `none` when it returns an error.
Carriage returns and line feeds are skipped. -/
def DecodeString (s : List Nat) : Option (List Nat) :=
  decodeBytes (s.filter (fun c => c != 13 && c != 10))

/-- The function `bytes.ToLower` on ASCII text. -/
def ToLower (s : List Nat) : List Nat :=
  s.map (fun c => if 65 ≤ c ∧ c ≤ 90 then c + 32 else c)

/-- The function `bytes.ToUpper` on ASCII text. -/
def ToUpper (s : List Nat) : List Nat :=
  s.map (fun c => if 97 ≤ c ∧ c ≤ 122 then c - 32 else c)

/-! ## `genOnionV3` -/

/-- The buffer `checksumArray` of `genOnionV3` when it is handed to `sha3.Sum256`:
`make([]byte, 48)`, then the three writes of lines 71-73. -/
def checksumArrayOf (pubKey : List Nat) : Except Fault (List Nat) :=
  match copyAt (copy (make 48) (bytesOf ".onion checksum")) 15 pubKey with
  | .error f => .error f
  | .ok checksumArray => assign checksumArray 47 3

/-- The buffer `addressArray` of `genOnionV3` when it is handed to `Encode`:
`make([]byte, 35)`, then the three writes of lines 81-83 (`checksum[0:2]` is
the first two elements of the `[32]byte` digest). -/
def addressArrayOf (pubKey checksum : List Nat) : Except Fault (List Nat) :=
  match copyAt (copy (make 35) pubKey) 32 (checksum.take 2) with
  | .error f => .error f
  | .ok addressArray => assign addressArray 34 3

/-- Lines 68-90 of `genOnionV3`: the address computed from the public key. -/
def onionV3 {ρ κ : Type} (L : Lib ρ κ) (pubKey : List Nat) : Except Fault (List Nat) :=
  match checksumArrayOf pubKey with
  | .error f => .error f
  | .ok checksumArray =>
    match addressArrayOf pubKey (L.Sum256 checksumArray) with
    | .error f => .error f
    | .ok addressArray =>
      match Encode (make 56) addressArray with
      | .error f => .error f
      | .ok address => .ok (ToLower address)

/-- The message printed when key generation fails with error text `e`. -/
def keyGenMsg (e : String) : String := "Error while generating new key pair: " ++ e

/-- The Go function `genOnionV3`: generate a key pair, keep the public key only,
exit with status 1 when key generation fails. -/
def genOnionV3 {ρ κ : Type} (L : Lib ρ κ) (w : World ρ κ) :
    Except Fault (List Nat) × World ρ κ :=
  match L.GenerateKey w.entropy with
  | (.error e, k) => (.error (.exit 1 (keyGenMsg e)), { w with entropy := k })
  | (.ok (pubKey, _), k) => (onionV3 L pubKey, { w with entropy := k })

/-! ## `worker` -/

/-- The Go variable `newline`. -/
def newline : List Nat := [10]

/-- The function `bytes.Join(s, sep)`. -/
def bytesJoin (s : List (List Nat)) (sep : List Nat) : List Nat :=
  match s with
  | [] => []
  | [a] => a
  | a :: b :: rest => a ++ sep ++ bytesJoin (b :: rest) sep

/-- The decimal digits of a natural number, most significant first (`"0"` for 0). -/
def decimal (n : Nat) : List Char :=
  if n = 0 then [Char.ofNat 48] else (Nat.digits 10 n).reverse.map Nat.digitChar

/-- The verb `%d` of `fmt` for an `int`. -/
def fmtD (n : Int) : String :=
  if n < 0 then String.mk (Char.ofNat 45 :: decimal n.natAbs) else String.mk (decimal n.natAbs)

/-- The digits of `n` padded on the left with `'0'` to at least `width` characters. -/
def zeroPad (width : Nat) (n : Nat) : List Char :=
  List.replicate (width - (Nat.digits 10 n).length) (Char.ofNat 48) ++
    (Nat.digits 10 n).reverse.map Nat.digitChar

/-- The verb `%04d` of `fmt` for an `int`: zero padding to width 4, the sign of a
negative number counting as one of the four characters. -/
def fmt04d (n : Int) : String :=
  if n < 0 then String.mk (Char.ofNat 45 :: zeroPad 3 n.natAbs) else String.mk (zeroPad 4 n.natAbs)

/-- The file name `fmt.Sprintf("v2_%04d.addr", workerID)` or
`fmt.Sprintf("v3_%04d.addr", workerID)` chosen by `worker`. -/
def addrFileName (onionVer workerID : Int) : String :=
  if onionVer = 2 then "v2_" ++ fmt04d workerID ++ ".addr"
  else "v3_" ++ fmt04d workerID ++ ".addr"

/-- The variable `addrFilePath` of `worker` (lines 114-119): empty unless the
version is 2 or 3. -/
def addrFilePath {ρ κ : Type} (L : Lib ρ κ) (outputDir : String) (onionVer workerID : Int) :
    String :=
  if onionVer = 2 then L.Join outputDir (addrFileName 2 workerID)
  else if onionVer = 3 then L.Join outputDir (addrFileName 3 workerID)
  else ""

/-- The message `worker` prints when writing its file fails with error text `e`. -/
def writeMsg (workerID onionVer : Int) (e : String) : String :=
  "[worker" ++ fmtD workerID ++ "] Could not write to output file for v" ++ fmtD onionVer ++
    " addresses: " ++ e ++ "\n"

/-- One iteration of the loop of `worker` (lines 101-106): the value stored in
`addrList[i]`, which stays `nil` for a version other than 2 and 3. -/
def genAddr {ρ κ : Type} (L : Lib ρ κ) (onionVer : Int) (w : World ρ κ) :
    Except Fault (List Nat) × World ρ κ :=
  if onionVer = 2 then genOnionV2 L w
  else if onionVer = 3 then genOnionV3 L w
  else (.ok [], w)

/-- The loop of `worker` (lines 99-107) with `n` iterations left: the entries of
`addrList` it fills, in order. -/
def addrListLoop {ρ κ : Type} (L : Lib ρ κ) (onionVer : Int) :
    Nat → World ρ κ → Except Fault (List (List Nat)) × World ρ κ
  | 0, w => (.ok [], w)
  | n + 1, w =>
    match genAddr L onionVer w with
    | (.error f, w1) => (.error f, w1)
    | (.ok a, w1) =>
      match addrListLoop L onionVer n w1 with
      | (.error f, w2) => (.error f, w2)
      | (.ok rest, w2) => (.ok (a :: rest), w2)

/-- Lines 97-107 of `worker`: `addrList` after the loop.
`make([][]byte, numAddrGen)` panics for a negative length. -/
def addrList {ρ κ : Type} (L : Lib ρ κ) (onionVer numAddrGen : Int) (w : World ρ κ) :
    Except Fault (List (List Nat)) × World ρ κ :=
  if numAddrGen < 0 then (.error .panic, w)
  else addrListLoop L onionVer numAddrGen.toNat w

/-- The Go function `worker` run to completion: build the batch, join it with
newlines, write the file, exit with status 1 when the write fails. -/
def worker {ρ κ : Type} (L : Lib ρ κ) (t : Task) (w : World ρ κ) :
    Except Fault Unit × World ρ κ :=
  match addrList L t.onionVer t.numAddrGen w with
  | (.error f, w1) => (.error f, w1)
  | (.ok batch, w1) =>
    match L.WriteFileErr w1.files (addrFilePath L t.outputDir t.onionVer t.workerID)
        (bytesJoin batch newline) with
    | some e => (.error (.exit 1 (writeMsg t.workerID t.onionVer e)), w1)
    | none =>
      (.ok (), { w1 with files := w1.files ++
        [(addrFilePath L t.outputDir t.onionVer t.workerID, bytesJoin batch newline)] })

/-! ## `main` -/

/-- The flag values after `flag.Parse()`. -/
structure Flags where
  v2 : Bool
  v3 : Bool
  numAddr : Int
  outputDir : String
  deriving DecidableEq

/-- The message of the first check of `main` (line 139). -/
def noFormatMsg : String := "At least one of the flags \'-v2\' or \'-v3\' has to be supplied.\n"

/-- The message of the second check of `main` (line 144). -/
def notMultipleMsg : String := "Number of addresses to generate must be a multiple of 5,000.\n"

/-- The loops of lines 167-177, from index `id` on:
`for ; id < numJobs; id++ { go worker(wg, id, onionVer, 5000, outputDir) }`. -/
def launchLoop (onionVer : Int) (outputDir : String) (numJobs : Int) (id : Int) : List Task :=
  if id < numJobs then
    { workerID := id, onionVer := onionVer, numAddrGen := 5000, outputDir := outputDir } ::
      launchLoop onionVer outputDir numJobs (id + 1)
  else []
termination_by (numJobs - id).toNat
decreasing_by omega

/-- The variable `v2NumJobs` of `main`. -/
def v2NumJobs (f : Flags) : Int := if f.v2 then Int.tdiv f.numAddr 5000 else 0

/-- The variable `v3NumJobs` of `main`. -/
def v3NumJobs (f : Flags) : Int := if f.v3 then Int.tdiv f.numAddr 5000 else 0

/-- The workers `main` launches once both checks have passed, in launch order. -/
def launches (f : Flags) : List Task :=
  launchLoop 2 f.outputDir (v2NumJobs f) 0 ++ launchLoop 3 f.outputDir (v3NumJobs f) 0

/-- The launched workers run one after the other in launch order, the run
stopping at the first fault (one schedule of the goroutines). -/
def runWorkers {ρ κ : Type} (L : Lib ρ κ) : List Task → World ρ κ → Except Fault Unit × World ρ κ
  | [], w => (.ok (), w)
  | t :: ts, w =>
    match worker L t w with
    | (.error f, w1) => (.error f, w1)
    | (.ok (), w1) => runWorkers L ts w1

/-- The Go function `main` after `flag.Parse()`: the two checks, the launch of
the workers, and `wg.Wait()`. -/
def main {ρ κ : Type} (L : Lib ρ κ) (f : Flags) (w : World ρ κ) :
    Except Fault Unit × World ρ κ :=
  if (!f.v2 && !f.v3) = true then (.error (.exit 1 noFormatMsg), w)
  else if Int.tmod f.numAddr 5000 ≠ 0 then (.error (.exit 1 notMultipleMsg), w)
  else runWorkers L (launches f) { w with spawned := w.spawned ++ launches f }

/-! ## A concrete instance of the external packages -/

/-- The 32-byte public key the sample key generator returns at counter `k`. -/
def sampleKey (k : Nat) : List Nat := (List.range 32).map (fun i => (37 * i + 11 * k + 215) % 256)

/-- A linear congruential generator standing for `math/rand`, a counter standing
for `crypto/rand.Reader` (key generation fails once the counter reaches 4), and a
byte sum standing for the hash. -/
def sampleLib : Lib Nat Nat where
  Intn := fun n s => (Int.emod (s / 65536) n, (s * 1103515245 + 12345) % 2147483648)
  GenerateKey := fun k =>
    if k < 4 then (.ok (sampleKey k, List.replicate 64 k), k + 1)
    else (.error "entropy source exhausted", k + 1)
  Sum256 := fun m => (List.range 32).map (fun i => (m.sum + 73 * i + 200) % 256)
  Sum256_size := by intro m; simp
  Sum256_byte := by
    intro m b hb
    simp only [List.mem_map] at hb
    obtain ⟨i, _, rfl⟩ := hb
    omega
  WriteFileErr := fun _ path _ => if path = "" then some "open : no such file or directory" else none
  Join := fun dir name => dir ++ "/" ++ name

/-- An initial state for `sampleLib`: the seed 20200701, nothing written or launched. -/
def sampleWorld : World Nat Nat := { rng := 20200701, entropy := 0, files := [], spawned := [] }

/-! ## Specification-side notions -/

/-- The documented contract of `mathrand.Intn`: for `n > 0` the number drawn is
in the half-open interval `[0, n)`. -/
def IntnInRange {ρ κ : Type} (L : Lib ρ κ) : Prop :=
  ∀ (n : Int) (s : ρ), 0 < n → 0 ≤ (L.Intn n s).1 ∧ (L.Intn n s).1 < n

/-- The indices returned by `n` successive calls `mathrand.Intn(32)` from state
`s`, and the state after them. -/
def draws {ρ κ : Type} (L : Lib ρ κ) : Nat → ρ → List Int × ρ
  | 0, s => ([], s)
  | n + 1, s => ((L.Intn 32 s).1 :: (draws L n (L.Intn 32 s).2).1, (draws L n (L.Intn 32 s).2).2)

/-- The contract of `ed25519.GenerateKey`: a public key has `PublicKeySize = 32` bytes. -/
def KeySized {ρ κ : Type} (L : Lib ρ κ) : Prop :=
  ∀ (k k' : κ) (pubKey privKey : List Nat),
    L.GenerateKey k = (.ok (pubKey, privKey), k') → pubKey.length = 32

/-- The first failure among the next `n` calls of `ed25519.GenerateKey` from
reader state `k`: its error text and the reader state right after the failing
call; `none` when all `n` calls succeed. -/
def firstKeyGenError {ρ κ : Type} (L : Lib ρ κ) : Nat → κ → Option (String × κ)
  | 0, _ => none
  | n + 1, k =>
    match L.GenerateKey k with
    | (.error e, k') => some (e, k')
    | (.ok _, k') => firstKeyGenError L n k'

/-- The faults a worker can end with: a run-time panic, the exit of `genOnionV3`
after a failed key generation, the exit of `worker` after a failed write. -/
def IsWorkerFault (f : Fault) : Prop :=
  f = .panic ∨ (∃ e, f = .exit 1 (keyGenMsg e)) ∨ ∃ id ver e, f = .exit 1 (writeMsg id ver e)

/-- The two exits of the checks at the start of `main` (lines 138-146). -/
def IsConfigError (f : Fault) : Prop :=
  f = .exit 1 noFormatMsg ∨ f = .exit 1 notMultipleMsg

/-- A byte is a lower-case letter or one of the digits `'2'..'7'`. -/
def IsLowerBase32 (c : Nat) : Prop := (97 ≤ c ∧ c ≤ 122) ∨ (50 ≤ c ∧ c ≤ 55)

instance (c : Nat) : Decidable (IsLowerBase32 c) := by unfold IsLowerBase32; infer_instance

/-- The sample packages with a key generator that pairs the same public keys with
other private keys. -/
def sampleLib2 : Lib Nat Nat :=
  { sampleLib with
    GenerateKey := fun k =>
      if k < 4 then (.ok (sampleKey k, List.replicate 64 (k + 100)), k + 1)
      else (.error "entropy source exhausted", k + 1) }

/-- The function `bytes.Split(s, sep)` for a separator of one byte `sep`: the
pieces of `s` between the occurrences of `sep` (one empty piece for an empty `s`). -/
def splitByte (sep : Nat) : List Nat → List (List Nat)
  | [] => [[]]
  | c :: cs =>
    if c = sep then [] :: splitByte sep cs
    else
      match splitByte sep cs with
      | [] => [[c]]
      | piece :: pieces => (c :: piece) :: pieces

/-- The address whose position `i` is `allowedCharsV2[idxs[i]]`. -/
def v2OfIndices (idxs : List Int) : List Nat :=
  idxs.map (fun idx => allowedCharsV2.getD idx.toNat 0)

/-- The sample packages with a pseudo-random source that replays a given list of
indices: `Intn` returns the head of the list and leaves the tail. -/
def replayLib : Lib (List Int) Nat where
  Intn := fun _ s => (s.headD 0, s.tail)
  GenerateKey := sampleLib.GenerateKey
  Sum256 := sampleLib.Sum256
  Sum256_size := sampleLib.Sum256_size
  Sum256_byte := sampleLib.Sum256_byte
  WriteFileErr := sampleLib.WriteFileErr
  Join := sampleLib.Join

/-- The number written by a run of decimal digit characters. -/
def decimalValue (cs : List Char) : Nat :=
  Nat.ofDigits 10 (cs.reverse.map (fun c => c.toNat - 48))

/-! ## Theorems: Go primitives -/

theorem take_succ_set (l : List Nat) (i v : Nat) (h : i < l.length) :
    (l.set i v).take (i + 1) = l.take i ++ [v] := by
  induction l generalizing i with
  | nil => simp at h
  | cons a t ih =>
    cases i with
    | zero => simp
    | succ j =>
      have hj : j < t.length := by simpa using h
      simp [ih j hj]

theorem mem_allowedCharsV2_iff (c : Nat) : c ∈ allowedCharsV2 ↔ IsLowerBase32 c := by
  unfold IsLowerBase32 allowedCharsV2
  constructor
  · intro h
    simp only [List.mem_cons, List.mem_singleton, List.mem_nil_iff, or_false] at h
    omega
  · intro h
    simp only [List.mem_cons, List.mem_singleton, List.mem_nil_iff, or_false]
    omega

theorem index_allowedCharsV2 (idx : Int) (h0 : 0 ≤ idx) (h1 : idx < 32) :
    index allowedCharsV2 idx = .ok (allowedCharsV2.getD idx.toNat 0) ∧
      allowedCharsV2.getD idx.toNat 0 ∈ allowedCharsV2 := by
  have hlen : allowedCharsV2.length = 32 := rfl
  refine ⟨by simp [index, hlen, h0, h1], ?_⟩
  have hn : idx.toNat < 32 := by omega
  generalize idx.toNat = k at hn
  interval_cases k <;> decide

/-! ## Theorems: `genOnionV2` -/

theorem draws_length {ρ κ : Type} (L : Lib ρ κ) (n : Nat) (s : ρ) :
    (draws L n s).1.length = n := by
  induction n generalizing s with
  | zero => rfl
  | succ n ih => simp [draws, ih]

theorem draws_inRange {ρ κ : Type} (L : Lib ρ κ) (hI : IntnInRange L) (n : Nat) (s : ρ) :
    ∀ idx ∈ (draws L n s).1, 0 ≤ idx ∧ idx < 32 := by
  induction n generalizing s with
  | zero => intro idx h; simp [draws] at h
  | succ n ih =>
    intro idx h
    simp only [draws, List.mem_cons] at h
    rcases h with rfl | h
    · exact hI 32 s (by decide)
    · exact ih _ idx h

/-- The loop of `genOnionV2` never faults when the drawn indices are in range:
it keeps the first `i` bytes of the buffer and fills the rest with the symbols
selected by the draws. -/
theorem genOnionV2Loop_eq {ρ κ : Type} (L : Lib ρ κ) (n i : Nat) (address : List Nat) (s : ρ)
    (hlen : i + n = address.length)
    (hr : ∀ idx ∈ (draws L n s).1, 0 ≤ idx ∧ idx < 32) :
    genOnionV2Loop L n i address s =
      (.ok (address.take i ++ (draws L n s).1.map (fun idx => allowedCharsV2.getD idx.toNat 0)),
        (draws L n s).2) := by
  induction n generalizing i address s with
  | zero =>
    have : address.length ≤ i := by omega
    simp [genOnionV2Loop, draws, List.take_of_length_le this]
  | succ n ih =>
    have hidx := hr (L.Intn 32 s).1 (by simp [draws])
    have hi : i < address.length := by omega
    have hix := (index_allowedCharsV2 _ hidx.1 hidx.2).1
    have hrest : ∀ idx ∈ (draws L n (L.Intn 32 s).2).1, 0 ≤ idx ∧ idx < 32 := by
      intro idx h
      exact hr idx (by simp [draws, h])
    have hstep := ih (i + 1) (address.set i (allowedCharsV2.getD (L.Intn 32 s).1.toNat 0))
      (L.Intn 32 s).2 (by simp; omega) hrest
    have hL : ((allowedCharsV2.length : Nat) : Int) = 32 := rfl
    simp only [genOnionV2Loop, hL, hix, assign, hi, if_true, hstep, draws, List.map_cons]
    rw [take_succ_set _ _ _ hi]
    simp

/-- The function `genOnionV2` in closed form: the symbols selected by 16 draws. -/
theorem genOnionV2_eq {ρ κ : Type} (L : Lib ρ κ) (w : World ρ κ)
    (hr : ∀ idx ∈ (draws L 16 w.rng).1, 0 ≤ idx ∧ idx < 32) :
    genOnionV2 L w =
      (.ok ((draws L 16 w.rng).1.map (fun idx => allowedCharsV2.getD idx.toNat 0)),
        { w with rng := (draws L 16 w.rng).2 }) := by
  simp only [genOnionV2]
  rw [genOnionV2Loop_eq L onionLenV2 0 (make onionLenV2) w.rng (by simp [make]) hr]
  simp [onionLenV2]

theorem sampleLib_intnInRange : IntnInRange sampleLib := by
  intro n s hn
  exact ⟨Int.emod_nonneg _ (by omega), Int.emod_lt_of_pos _ hn⟩

/-- C1: for every state of the pseudo-random source (whose `Intn` meets its
contract), `genOnionV2` returns an address of exactly 16 bytes, each of them one
of the 32 symbols of `allowedCharsV2`, that is `'a'..'z'` or `'2'..'7'`; no byte
is an upper-case letter or the newline separator. -/
theorem genOnionV2_wellFormed {ρ κ : Type} (L : Lib ρ κ) (hI : IntnInRange L) (w : World ρ κ) :
    allowedCharsV2.length = 32 ∧
    ∃ addr, (genOnionV2 L w).1 = .ok addr ∧ addr.length = 16 ∧
      ∀ c ∈ addr, c ∈ allowedCharsV2 ∧ IsLowerBase32 c ∧ ¬ (65 ≤ c ∧ c ≤ 90) ∧ c ∉ newline := by
  refine ⟨rfl, (draws L 16 w.rng).1.map (fun idx => allowedCharsV2.getD idx.toNat 0), ?_, ?_, ?_⟩
  · rw [genOnionV2_eq L w (draws_inRange L hI _ _)]
  · simp [draws_length]
  · intro c hc
    simp only [List.mem_map] at hc
    obtain ⟨idx, hidx, rfl⟩ := hc
    have hr := draws_inRange L hI _ _ idx hidx
    have hm := (index_allowedCharsV2 idx hr.1 hr.2).2
    have hl := (mem_allowedCharsV2_iff _).1 hm
    refine ⟨hm, hl, ?_, ?_⟩
    · unfold IsLowerBase32 at hl; omega
    · unfold IsLowerBase32 at hl; simp only [newline, List.mem_singleton]; omega

/-- C1 applied to the sample generator seeded with 20200701. -/
theorem genOnionV2_wellFormed_witness :
    IntnInRange sampleLib ∧ allowedCharsV2.length = 32 ∧
    ∃ addr, (genOnionV2 sampleLib sampleWorld).1 = .ok addr ∧ addr.length = 16 ∧
      ∀ c ∈ addr, c ∈ allowedCharsV2 ∧ IsLowerBase32 c ∧ ¬ (65 ≤ c ∧ c ≤ 90) ∧ c ∉ newline :=
  ⟨sampleLib_intnInRange, genOnionV2_wellFormed sampleLib sampleLib_intnInRange sampleWorld⟩

/-! ## Theorems: the buffers of `genOnionV3` -/

theorem set_length_append (A : List Nat) (x v : Nat) :
    (A ++ [x]).set A.length v = A ++ [v] := by
  induction A with
  | nil => rfl
  | cons a t ih => simp [ih]

theorem bytesOf_onion_checksum :
    bytesOf ".onion checksum" =
      [46, 111, 110, 105, 111, 110, 32, 99, 104, 101, 99, 107, 115, 117, 109] := by
  decide

/-- The buffer handed to `sha3.Sum256` for a 32-byte public key. -/
theorem checksumArrayOf_eq (pubKey : List Nat) (hk : pubKey.length = 32) :
    checksumArrayOf pubKey = .ok (bytesOf ".onion checksum" ++ pubKey ++ [3]) := by
  have hp : (bytesOf ".onion checksum").length = 15 := by rw [bytesOf_onion_checksum]; rfl
  have h1 : copy (make 48) (bytesOf ".onion checksum") =
      bytesOf ".onion checksum" ++ List.replicate 33 0 := by
    simp [copy, make, hp, List.take_of_length_le]
  have h2 : copyAt (bytesOf ".onion checksum" ++ List.replicate 33 0) 15 pubKey =
      .ok (bytesOf ".onion checksum" ++ pubKey ++ [0]) := by
    have ht : List.take 15 (bytesOf ".onion checksum") = bytesOf ".onion checksum" :=
      List.take_of_length_le (by omega)
    have hd : List.drop 15 (bytesOf ".onion checksum") = [] :=
      List.drop_of_length_le (by omega)
    have hpk : List.take 33 pubKey = pubKey := List.take_of_length_le (by omega)
    simp [copyAt, sliceFrom, copy, hp, hk, List.take_append_eq_append_take,
      List.drop_append_eq_append_drop, ht, hd, hpk]
  have h3 : (bytesOf ".onion checksum" ++ pubKey).length = 47 := by simp [hp, hk]
  simp only [checksumArrayOf, h1, h2, assign]
  rw [if_pos (by simp [hp, hk])]
  have := set_length_append (bytesOf ".onion checksum" ++ pubKey) 0 3
  rw [h3] at this
  rw [this]

/-- The buffer handed to `Encode` for a 32-byte public key and a digest. -/
theorem addressArrayOf_eq (pubKey checksum : List Nat) (hk : pubKey.length = 32)
    (hc : 2 ≤ checksum.length) :
    addressArrayOf pubKey checksum = .ok (pubKey ++ checksum.take 2 ++ [3]) := by
  have hpk : List.take 35 pubKey = pubKey := List.take_of_length_le (by omega)
  have ht : List.take 32 pubKey = pubKey := List.take_of_length_le (by omega)
  have hd : List.drop 32 pubKey = [] := List.drop_of_length_le (by omega)
  have hl2 : (checksum.take 2).length = 2 := by simp; omega
  have h1 : copy (make 35) pubKey = pubKey ++ List.replicate 3 0 := by
    simp [copy, make, hk, hpk]
  have h2 : copyAt (pubKey ++ List.replicate 3 0) 32 (checksum.take 2) =
      .ok (pubKey ++ checksum.take 2 ++ [0]) := by
    have h3 : List.take 3 (List.take 2 checksum) = List.take 2 checksum := by
      rw [List.take_take]; rfl
    simp [copyAt, sliceFrom, copy, hk, List.take_append_eq_append_take,
      List.drop_append_eq_append_drop, ht, hd, hl2, h3]
  have h3 : (pubKey ++ checksum.take 2).length = 34 := by simp [hk]; omega
  simp only [addressArrayOf, h1, h2, assign]
  rw [if_pos (by simp [hk]; omega)]
  have := set_length_append (pubKey ++ checksum.take 2) 0 3
  rw [h3] at this
  rw [this]

/-! ## Theorems: `encoding/base32` -/

theorem encodeSym_mem (b : Nat) : encodeSym b ∈ encodeStd := by
  have h : b &&& 31 < 2 ^ 5 := Nat.and_lt_two_pow b (by decide)
  unfold encodeSym
  generalize b &&& 31 = k at h
  have h32 : k < 32 := h
  interval_cases k <;> decide

theorem unpack_length (s0 s1 s2 s3 s4 : Nat) : (unpack s0 s1 s2 s3 s4).length = 8 := rfl

/-- A source of `5 * k` bytes is encoded to `8 * k` alphabet symbols, without padding. -/
theorem encodeBytes_full (k : Nat) (src : List Nat) (h : src.length = 5 * k) :
    (encodeBytes src).length = 8 * k ∧ ∀ c ∈ encodeBytes src, c ∈ encodeStd := by
  induction k generalizing src with
  | zero =>
    have : src = [] := List.length_eq_zero.1 (by simpa using h)
    subst this
    simp [encodeBytes]
  | succ k ih =>
    match src, h with
    | s0 :: s1 :: s2 :: s3 :: s4 :: rest, h =>
      have hr : rest.length = 5 * k := by simp at h; omega
      obtain ⟨hl, hm⟩ := ih rest hr
      refine ⟨?_, ?_⟩
      · simp only [encodeBytes, List.length_append, List.length_map, unpack_length, hl]
        omega
      · intro c hc
        simp only [encodeBytes, List.mem_append, List.mem_map] at hc
        rcases hc with ⟨b, _, rfl⟩ | hc
        · exact encodeSym_mem b
        · exact hm c hc

theorem mem_encodeStd_iff (c : Nat) : c ∈ encodeStd ↔ (65 ≤ c ∧ c ≤ 90) ∨ (50 ≤ c ∧ c ≤ 55) := by
  unfold encodeStd
  constructor
  · intro h
    simp only [List.mem_cons, List.mem_singleton, List.mem_nil_iff, or_false] at h
    omega
  · intro h
    simp only [List.mem_cons, List.mem_singleton, List.mem_nil_iff, or_false]
    omega

/-- The address `onionV3` returns for a 32-byte public key. -/
theorem onionV3_eq {ρ κ : Type} (L : Lib ρ κ) (pubKey : List Nat) (hk : pubKey.length = 32) :
    onionV3 L pubKey = .ok (ToLower (encodeBytes (pubKey ++
      (L.Sum256 (bytesOf ".onion checksum" ++ pubKey ++ [3])).take 2 ++ [3]))) := by
  have hs := L.Sum256_size (bytesOf ".onion checksum" ++ pubKey ++ [3])
  have hlen : (pubKey ++ (L.Sum256 (bytesOf ".onion checksum" ++ pubKey ++ [3])).take 2
      ++ [3]).length = 5 * 7 := by
    simp only [List.length_append, List.length_take, hk, hs, List.length_singleton]
    decide
  have he := (encodeBytes_full 7 _ hlen).1
  simp only [onionV3, checksumArrayOf_eq pubKey hk,
    addressArrayOf_eq pubKey _ hk (by rw [hs]; decide), Encode]
  rw [if_pos (by rw [he]; simp [make])]
  have hd : List.drop (8 * 7) (make 56) = [] := List.drop_of_length_le (by simp [make])
  rw [he, hd, List.append_nil]

/-- The address `genOnionV3` returns when key generation succeeds. -/
theorem genOnionV3_eq {ρ κ : Type} (L : Lib ρ κ) (w : World ρ κ) (pubKey privKey : List Nat)
    (k : κ) (hg : L.GenerateKey w.entropy = (.ok (pubKey, privKey), k))
    (hk : pubKey.length = 32) :
    genOnionV3 L w = (.ok (ToLower (encodeBytes (pubKey ++
      (L.Sum256 (bytesOf ".onion checksum" ++ pubKey ++ [3])).take 2 ++ [3]))),
      { w with entropy := k }) := by
  simp only [genOnionV3, hg, onionV3_eq L pubKey hk]

/-- A lower-cased run of `5 * k` encoded bytes: `8 * k` lower-case symbols. -/
theorem toLower_encodeBytes_wellFormed (k : Nat) (src : List Nat) (h : src.length = 5 * k) :
    (ToLower (encodeBytes src)).length = 8 * k ∧
      ∀ c ∈ ToLower (encodeBytes src),
        IsLowerBase32 c ∧ c ≠ padChar ∧ ¬ (65 ≤ c ∧ c ≤ 90) := by
  obtain ⟨hl, hm⟩ := encodeBytes_full k src h
  refine ⟨by simp [ToLower, hl], ?_⟩
  intro c hc
  simp only [ToLower, List.mem_map] at hc
  obtain ⟨u, hu, rfl⟩ := hc
  have := (mem_encodeStd_iff u).1 (hm u hu)
  unfold IsLowerBase32 padChar
  split <;> omega

theorem sampleKey_length (k : Nat) : (sampleKey k).length = 32 := by simp [sampleKey]

theorem sampleKey_byte (k : Nat) : ∀ b ∈ sampleKey k, b < 256 := by
  intro b hb
  simp only [sampleKey, List.mem_map] at hb
  obtain ⟨i, _, rfl⟩ := hb
  omega

/-- C2: for a 32-byte public key returned by key generation, `genOnionV3`
returns an address of exactly 56 bytes, every one a symbol of the lower-cased
base32 alphabet (`'a'..'z'`, `'2'..'7'`); the padding character `'='` does not
occur and no byte is upper-case. -/
theorem genOnionV3_wellFormed {ρ κ : Type} (L : Lib ρ κ) (w : World ρ κ)
    (pubKey privKey : List Nat) (k : κ)
    (hg : L.GenerateKey w.entropy = (.ok (pubKey, privKey), k)) (hk : pubKey.length = 32) :
    ∃ addr, (genOnionV3 L w).1 = .ok addr ∧ addr.length = 56 ∧
      ∀ c ∈ addr, IsLowerBase32 c ∧ c ≠ padChar ∧ ¬ (65 ≤ c ∧ c ≤ 90) := by
  have hs := L.Sum256_size (bytesOf ".onion checksum" ++ pubKey ++ [3])
  have hlen : (pubKey ++ (L.Sum256 (bytesOf ".onion checksum" ++ pubKey ++ [3])).take 2
      ++ [3]).length = 5 * 7 := by
    simp only [List.length_append, List.length_take, hk, hs, List.length_singleton]
    decide
  obtain ⟨hl, hm⟩ := toLower_encodeBytes_wellFormed 7 _ hlen
  exact ⟨_, by rw [genOnionV3_eq L w pubKey privKey k hg hk], hl, hm⟩

/-- C2 applied to the first key of the sample key generator. -/
theorem genOnionV3_wellFormed_witness :
    sampleLib.GenerateKey sampleWorld.entropy = (.ok (sampleKey 0, List.replicate 64 0), 1) ∧
    (sampleKey 0).length = 32 ∧
    ∃ addr, (genOnionV3 sampleLib sampleWorld).1 = .ok addr ∧ addr.length = 56 ∧
      ∀ c ∈ addr, IsLowerBase32 c ∧ c ≠ padChar ∧ ¬ (65 ≤ c ∧ c ≤ 90) :=
  ⟨rfl, sampleKey_length 0,
    genOnionV3_wellFormed sampleLib sampleWorld (sampleKey 0) (List.replicate 64 0) 1 rfl
      (sampleKey_length 0)⟩

/-! ## Theorems: decoding what `Encode` wrote -/

theorem and31 (x : Nat) : x &&& 31 = x % 32 := Nat.and_pow_two_sub_one_eq_mod x 5

/-- A bitwise or of a multiple of `2 ^ k` and a number below `2 ^ k` is their sum. -/
theorem or_eq_add (k a b : Nat) (ha : a % 2 ^ k = 0) (hb : b < 2 ^ k) : a ||| b = a + b := by
  obtain ⟨q, rfl⟩ : 2 ^ k ∣ a := Nat.dvd_of_mod_eq_zero ha
  exact (Nat.mul_add_lt_is_or hb q).symm

/-- The 5-bit groups of one quantum, in arithmetic form. -/
theorem unpack_arith (s0 s1 s2 s3 s4 : Nat) (h0 : s0 < 256) (h1 : s1 < 256) (h2 : s2 < 256)
    (h3 : s3 < 256) (h4 : s4 < 256) :
    (unpack s0 s1 s2 s3 s4).map (fun b => b &&& 31) =
      [s0 / 8, s0 % 8 * 4 + s1 / 64, s1 / 2 % 32, s1 % 2 * 16 + s2 / 16,
       s2 % 16 * 2 + s3 / 128, s3 / 4 % 32, s3 % 4 * 8 + s4 / 32, s4 % 32] := by
  simp only [unpack, List.map_cons, List.map_nil, and31, Nat.shiftRight_eq_div_pow,
    Nat.shiftLeft_eq]
  rw [Nat.lor_comm (s1 / 2 ^ 6 % 32), Nat.lor_comm (s2 / 2 ^ 4 % 32),
    Nat.lor_comm (s3 / 2 ^ 7), Nat.lor_comm (s4 / 2 ^ 5)]
  rw [or_eq_add 2 (s0 * 2 ^ 2 % 256 % 32) (s1 / 2 ^ 6 % 32) (by omega) (by omega),
    or_eq_add 4 (s1 * 2 ^ 4 % 256 % 32) (s2 / 2 ^ 4 % 32) (by omega) (by omega),
    or_eq_add 1 (s2 * 2 ^ 1 % 256 % 32) (s3 / 2 ^ 7) (by omega) (by omega),
    or_eq_add 3 (s3 * 2 ^ 3 % 256 % 32) (s4 / 2 ^ 5) (by omega) (by omega)]
  simp only [List.cons.injEq, and_true]
  refine ⟨?_, ?_, ?_, ?_, ?_, ?_, ?_, ?_⟩ <;> omega

/-- The bytes packed from eight 5-bit values, in arithmetic form. -/
theorem pack_arith (v0 v1 v2 v3 v4 v5 v6 v7 : Nat) (h1 : v1 < 32) (h2 : v2 < 32) (h3 : v3 < 32)
    (h4 : v4 < 32) (h5 : v5 < 32) (h6 : v6 < 32) (h7 : v7 < 32) :
    pack v0 v1 v2 v3 v4 v5 v6 v7 =
      [(v0 * 8 + v1 / 4) % 256, (v1 * 64 + v2 * 2 + v3 / 16) % 256, (v3 * 16 + v4 / 2) % 256,
       (v4 * 128 + v5 * 4 + v6 / 8) % 256, (v6 * 32 + v7) % 256] := by
  simp only [pack, Nat.shiftRight_eq_div_pow, Nat.shiftLeft_eq]
  rw [or_eq_add 3 (v0 * 2 ^ 3) (v1 / 2 ^ 2) (by omega) (by omega),
    or_eq_add 6 (v1 * 2 ^ 6) (v2 * 2 ^ 1) (by omega) (by omega),
    or_eq_add 1 (v1 * 2 ^ 6 + v2 * 2 ^ 1) (v3 / 2 ^ 4) (by omega) (by omega),
    or_eq_add 4 (v3 * 2 ^ 4) (v4 / 2 ^ 1) (by omega) (by omega),
    or_eq_add 7 (v4 * 2 ^ 7) (v5 * 2 ^ 2) (by omega) (by omega),
    or_eq_add 2 (v4 * 2 ^ 7 + v5 * 2 ^ 2) (v6 / 2 ^ 3) (by omega) (by omega),
    or_eq_add 5 (v6 * 2 ^ 5) v7 (by omega) (by omega)]

theorem decodeMap_encodeSym (b : Nat) : decodeMap (encodeSym b) = some (b &&& 31) := by
  have h : b &&& 31 < 2 ^ 5 := Nat.and_lt_two_pow b (by decide)
  unfold encodeSym
  generalize b &&& 31 = k at h
  have h32 : k < 32 := h
  interval_cases k <;> decide

theorem encodeSym_ne_pad (b : Nat) : (encodeSym b != padChar) = true := by
  have := (mem_encodeStd_iff _).1 (encodeSym_mem b)
  simp only [padChar, bne_iff_ne, ne_eq]
  omega

/-- Decoding the eight symbols written for eight 5-bit groups packs the groups. -/
theorem decodeQuantum_encodeSym (b0 b1 b2 b3 b4 b5 b6 b7 : Nat) (last : Bool) :
    decodeQuantum [encodeSym b0, encodeSym b1, encodeSym b2, encodeSym b3, encodeSym b4,
        encodeSym b5, encodeSym b6, encodeSym b7] last =
      some (pack (b0 &&& 31) (b1 &&& 31) (b2 &&& 31) (b3 &&& 31) (b4 &&& 31) (b5 &&& 31)
        (b6 &&& 31) (b7 &&& 31)) := by
  simp [decodeQuantum, List.takeWhile, List.dropWhile, encodeSym_ne_pad, decodeMap_encodeSym,
    decodeSyms, pack]

/-- One quantum of five bytes survives unpacking and packing. -/
theorem pack_unpack (s0 s1 s2 s3 s4 : Nat) (h0 : s0 < 256) (h1 : s1 < 256) (h2 : s2 < 256)
    (h3 : s3 < 256) (h4 : s4 < 256) :
    pack (s0 / 8) (s0 % 8 * 4 + s1 / 64) (s1 / 2 % 32) (s1 % 2 * 16 + s2 / 16)
      (s2 % 16 * 2 + s3 / 128) (s3 / 4 % 32) (s3 % 4 * 8 + s4 / 32) (s4 % 32) =
      [s0, s1, s2, s3, s4] := by
  rw [pack_arith _ _ _ _ _ _ _ _ (by omega) (by omega) (by omega) (by omega) (by omega)
    (by omega) (by omega)]
  simp only [List.cons.injEq, and_true]
  refine ⟨?_, ?_, ?_, ?_, ?_⟩ <;> omega

/-- Decoding inverts encoding on sources of `5 * k` bytes. -/
theorem decodeBytes_encodeBytes (k : Nat) (src : List Nat) (h : src.length = 5 * k)
    (hb : ∀ b ∈ src, b < 256) : decodeBytes (encodeBytes src) = some src := by
  induction k generalizing src with
  | zero =>
    have : src = [] := List.length_eq_zero.1 (by simpa using h)
    subst this
    simp [encodeBytes, decodeBytes]
  | succ k ih =>
    match src, h, hb with
    | s0 :: s1 :: s2 :: s3 :: s4 :: rest, h, hb =>
      have hr : rest.length = 5 * k := by simp at h; omega
      have h0 : s0 < 256 := hb s0 (by simp)
      have h1 : s1 < 256 := hb s1 (by simp)
      have h2 : s2 < 256 := hb s2 (by simp)
      have h3 : s3 < 256 := hb s3 (by simp)
      have h4 : s4 < 256 := hb s4 (by simp)
      have hrest := ih rest hr (fun b hm => hb b (by simp [hm]))
      have ha := unpack_arith s0 s1 s2 s3 s4 h0 h1 h2 h3 h4
      simp only [unpack, List.map_cons, List.map_nil, List.cons.injEq, and_true] at ha
      obtain ⟨e0, e1, e2, e3, e4, e5, e6, e7⟩ := ha
      simp only [encodeBytes, unpack, List.map_cons, List.map_nil, List.cons_append,
        List.nil_append, decodeBytes, decodeQuantum_encodeSym, e0, e1, e2, e3, e4, e5,
        e6, e7, pack_unpack s0 s1 s2 s3 s4 h0 h1 h2 h3 h4]
      have hnil : ([] : List Nat).append (encodeBytes rest) = encodeBytes rest := rfl
      simp only [hnil, hrest, List.cons_append, List.nil_append]

theorem toUpper_toLower (s : List Nat) (h : ∀ c ∈ s, c ∈ encodeStd) :
    ToUpper (ToLower s) = s := by
  induction s with
  | nil => rfl
  | cons c t ih =>
    have hc := (mem_encodeStd_iff c).1 (h c (by simp))
    have ht := ih (fun x hx => h x (by simp [hx]))
    simp only [ToUpper, ToLower, List.map_cons, List.map_map, List.cons.injEq] at ht ⊢
    refine ⟨?_, ht⟩
    split <;> split <;> omega

theorem filter_newlines (s : List Nat) (h : ∀ c ∈ s, c ∈ encodeStd) :
    s.filter (fun c => c != 13 && c != 10) = s := by
  rw [List.filter_eq_self]
  intro c hc
  have := (mem_encodeStd_iff c).1 (h c hc)
  simp only [Bool.and_eq_true, bne_iff_ne, ne_eq]
  omega

/-- Upper-casing and decoding the lower-cased encoding of `5 * k` bytes gives them back. -/
theorem decodeString_toUpper (k : Nat) (src : List Nat) (h : src.length = 5 * k)
    (hb : ∀ b ∈ src, b < 256) :
    DecodeString (ToUpper (ToLower (encodeBytes src))) = some src := by
  have hm := (encodeBytes_full k src h).2
  rw [toUpper_toLower _ hm, DecodeString, filter_newlines _ hm, decodeBytes_encodeBytes k src h hb]

/-! ## Theorems: `genOnionV3` -/

/-- The 35 bytes `genOnionV3` encodes are what upper-casing and decoding its
address gives back. -/
theorem decode_onionV3 {ρ κ : Type} (L : Lib ρ κ) (pubKey : List Nat) (hk : pubKey.length = 32)
    (hb : ∀ b ∈ pubKey, b < 256) :
    ∃ addr, onionV3 L pubKey = .ok addr ∧
      DecodeString (ToUpper addr) = some (pubKey ++
        ((L.Sum256 (bytesOf ".onion checksum" ++ pubKey ++ [3])).take 2 ++ [3])) := by
  have hs := L.Sum256_size (bytesOf ".onion checksum" ++ pubKey ++ [3])
  have hlen : (pubKey ++ (L.Sum256 (bytesOf ".onion checksum" ++ pubKey ++ [3])).take 2
      ++ [3]).length = 5 * 7 := by
    simp only [List.length_append, List.length_take, hk, hs, List.length_singleton]
    decide
  have hbytes : ∀ b ∈ pubKey ++ (L.Sum256 (bytesOf ".onion checksum" ++ pubKey ++ [3])).take 2
      ++ [3], b < 256 := by
    intro b hm
    simp only [List.mem_append, List.mem_singleton] at hm
    rcases hm with (hm | hm) | hm
    · exact hb b hm
    · exact L.Sum256_byte _ b (List.mem_of_mem_take hm)
    · omega
  refine ⟨_, onionV3_eq L pubKey hk, ?_⟩
  rw [decodeString_toUpper 7 _ hlen hbytes, List.append_assoc]

/-- The layout of the 35 bytes `pubKey ++ checksum ++ [3]`. -/
theorem layout35 (pk cs : List Nat) (hk : pk.length = 32) (hc : cs.length = 2) :
    (pk ++ (cs ++ [3])).length = 35 ∧ (pk ++ (cs ++ [3])).take 32 = pk ∧
      ((pk ++ (cs ++ [3])).drop 32).take 2 = cs ∧ (pk ++ (cs ++ [3]))[34]? = some 3 := by
  refine ⟨by simp [hk, hc], List.take_left' hk, ?_, ?_⟩
  · rw [List.drop_left' hk, List.take_left' hc]
  · rw [← List.append_assoc, List.getElem?_append_right (by simp [hk, hc])]
    simp [hk, hc]

/-- C3: round trip of a V3 address.  Upper-casing the address returned by
`genOnionV3` and base32-decoding it yields exactly 35 bytes; the first 32 are the
public key, and bytes 32..33 are the first two bytes of the hash of the 48-byte
buffer `".onion checksum" ++ decoded[0..31] ++ [decoded[34]]`. -/
theorem genOnionV3_roundTrip {ρ κ : Type} (L : Lib ρ κ) (w : World ρ κ)
    (pubKey privKey : List Nat) (k : κ)
    (hg : L.GenerateKey w.entropy = (.ok (pubKey, privKey), k)) (hk : pubKey.length = 32)
    (hb : ∀ b ∈ pubKey, b < 256) :
    ∃ addr decoded, (genOnionV3 L w).1 = .ok addr ∧
      DecodeString (ToUpper addr) = some decoded ∧ decoded.length = 35 ∧
      decoded.take 32 = pubKey ∧
      (bytesOf ".onion checksum" ++ decoded.take 32 ++ [decoded.getD 34 0]).length = 48 ∧
      (decoded.drop 32).take 2 =
        (L.Sum256 (bytesOf ".onion checksum" ++ decoded.take 32 ++ [decoded.getD 34 0])).take 2 := by
  obtain ⟨addr, ha, hd⟩ := decode_onionV3 L pubKey hk hb
  have hs := L.Sum256_size (bytesOf ".onion checksum" ++ pubKey ++ [3])
  have hp : (bytesOf ".onion checksum").length = 15 := by rw [bytesOf_onion_checksum]; rfl
  have ht2 : ((L.Sum256 (bytesOf ".onion checksum" ++ pubKey ++ [3])).take 2).length = 2 := by
    rw [List.length_take, hs]; decide
  obtain ⟨hlen, htake, hdrop, hget⟩ := layout35 pubKey _ hk ht2
  have hgetD : (pubKey ++ ((L.Sum256 (bytesOf ".onion checksum" ++ pubKey ++ [3])).take 2
      ++ [3])).getD 34 0 = 3 := by
    rw [List.getD_eq_getElem?_getD, hget]; rfl
  refine ⟨addr, _, ?_, hd, hlen, htake, ?_, ?_⟩
  · simp only [genOnionV3, hg, ha]
  · rw [htake, List.length_append, List.length_append, hp, hk]; rfl
  · rw [htake, hdrop, hgetD]

/-- C3 applied to the first key of the sample key generator. -/
theorem genOnionV3_roundTrip_witness :
    sampleLib.GenerateKey sampleWorld.entropy = (.ok (sampleKey 0, List.replicate 64 0), 1) ∧
    (sampleKey 0).length = 32 ∧ (∀ b ∈ sampleKey 0, b < 256) ∧
    ∃ addr decoded, (genOnionV3 sampleLib sampleWorld).1 = .ok addr ∧
      DecodeString (ToUpper addr) = some decoded ∧ decoded.length = 35 ∧
      decoded.take 32 = sampleKey 0 ∧
      (bytesOf ".onion checksum" ++ decoded.take 32 ++ [decoded.getD 34 0]).length = 48 ∧
      (decoded.drop 32).take 2 =
        (sampleLib.Sum256
          (bytesOf ".onion checksum" ++ decoded.take 32 ++ [decoded.getD 34 0])).take 2 :=
  ⟨rfl, sampleKey_length 0, sampleKey_byte 0,
    genOnionV3_roundTrip sampleLib sampleWorld (sampleKey 0) (List.replicate 64 0) 1 rfl
      (sampleKey_length 0) (sampleKey_byte 0)⟩

/-- C4: the version byte embedded in a V3 address is 3.  Upper-casing and
base32-decoding the address returned by `genOnionV3` gives 35 bytes, and the byte
at index 34 is 3. -/
theorem genOnionV3_versionByte {ρ κ : Type} (L : Lib ρ κ) (w : World ρ κ)
    (pubKey privKey : List Nat) (k : κ)
    (hg : L.GenerateKey w.entropy = (.ok (pubKey, privKey), k)) (hk : pubKey.length = 32)
    (hb : ∀ b ∈ pubKey, b < 256) :
    ∃ addr decoded, (genOnionV3 L w).1 = .ok addr ∧
      DecodeString (ToUpper addr) = some decoded ∧ decoded.length = 35 ∧
      decoded[34]? = some 3 := by
  obtain ⟨addr, ha, hd⟩ := decode_onionV3 L pubKey hk hb
  have hs := L.Sum256_size (bytesOf ".onion checksum" ++ pubKey ++ [3])
  have ht2 : ((L.Sum256 (bytesOf ".onion checksum" ++ pubKey ++ [3])).take 2).length = 2 := by
    rw [List.length_take, hs]; decide
  obtain ⟨hlen, _, _, hget⟩ := layout35 pubKey _ hk ht2
  exact ⟨addr, _, by simp only [genOnionV3, hg, ha], hd, hlen, hget⟩

/-- C4 applied to the second key of the sample key generator. -/
theorem genOnionV3_versionByte_witness :
    sampleLib.GenerateKey 1 = (.ok (sampleKey 1, List.replicate 64 1), 2) ∧
    (sampleKey 1).length = 32 ∧ (∀ b ∈ sampleKey 1, b < 256) ∧
    ∃ addr decoded, (genOnionV3 sampleLib { sampleWorld with entropy := 1 }).1 = .ok addr ∧
      DecodeString (ToUpper addr) = some decoded ∧ decoded.length = 35 ∧
      decoded[34]? = some 3 :=
  ⟨rfl, sampleKey_length 1, sampleKey_byte 1,
    genOnionV3_versionByte sampleLib { sampleWorld with entropy := 1 } (sampleKey 1)
      (List.replicate 64 1) 2 rfl (sampleKey_length 1) (sampleKey_byte 1)⟩

/-- C5: for a 32-byte public key the buffer `genOnionV3` hashes is exactly 48
bytes long: bytes 0..14 are the 15 ASCII bytes of `".onion checksum"`, bytes
15..46 are the public key in order, byte 47 is 3.  Of the digest only the first
two bytes are used: they are the checksum placed after the public key in the
encoded bytes, and two digests with the same first two bytes give the same
address bytes. -/
theorem genOnionV3_checksumInput {ρ κ : Type} (L : Lib ρ κ) (w : World ρ κ)
    (pubKey privKey : List Nat) (k : κ)
    (hg : L.GenerateKey w.entropy = (.ok (pubKey, privKey), k)) (hk : pubKey.length = 32) :
    ∃ buf, checksumArrayOf pubKey = .ok buf ∧ buf.length = 48 ∧
      (bytesOf ".onion checksum").length = 15 ∧
      buf.take 15 = bytesOf ".onion checksum" ∧ (buf.drop 15).take 32 = pubKey ∧
      buf[47]? = some 3 ∧
      (genOnionV3 L w).1 =
        .ok (ToLower (encodeBytes (pubKey ++ (L.Sum256 buf).take 2 ++ [3]))) ∧
      ∀ digest digest' : List Nat, digest.take 2 = digest'.take 2 →
        addressArrayOf pubKey digest = addressArrayOf pubKey digest' := by
  have hp : (bytesOf ".onion checksum").length = 15 := by rw [bytesOf_onion_checksum]; rfl
  refine ⟨_, checksumArrayOf_eq pubKey hk, ?_, hp, ?_, ?_, ?_, ?_, ?_⟩
  · simp [hp, hk]
  · rw [List.append_assoc, List.take_left' hp]
  · rw [List.append_assoc, List.drop_left' hp, List.take_left' hk]
  · rw [List.getElem?_append_right (by simp [hp, hk])]
    simp [hp, hk]
  · rw [genOnionV3_eq L w pubKey privKey k hg hk]
  · intro d d' h
    simp only [addressArrayOf, h]

/-- C5 applied to the third key of the sample key generator. -/
theorem genOnionV3_checksumInput_witness :
    sampleLib.GenerateKey 2 = (.ok (sampleKey 2, List.replicate 64 2), 3) ∧
    (sampleKey 2).length = 32 ∧
    ∃ buf, checksumArrayOf (sampleKey 2) = .ok buf ∧ buf.length = 48 ∧
      (bytesOf ".onion checksum").length = 15 ∧
      buf.take 15 = bytesOf ".onion checksum" ∧ (buf.drop 15).take 32 = sampleKey 2 ∧
      buf[47]? = some 3 ∧
      (genOnionV3 sampleLib { sampleWorld with entropy := 2 }).1 =
        .ok (ToLower (encodeBytes (sampleKey 2 ++ (sampleLib.Sum256 buf).take 2 ++ [3]))) ∧
      ∀ digest digest' : List Nat, digest.take 2 = digest'.take 2 →
        addressArrayOf (sampleKey 2) digest = addressArrayOf (sampleKey 2) digest' :=
  ⟨rfl, sampleKey_length 2,
    genOnionV3_checksumInput sampleLib { sampleWorld with entropy := 2 } (sampleKey 2)
      (List.replicate 64 2) 3 rfl (sampleKey_length 2)⟩

/-! ## Theorems: `worker` -/

/-- The batch loop for V2 never faults; it touches the pseudo-random source only. -/
theorem addrListLoop_v2 {ρ κ : Type} (L : Lib ρ κ) (hI : IntnInRange L) (n : Nat)
    (w : World ρ κ) :
    ∃ batch s, addrListLoop L 2 n w = (.ok batch, { w with rng := s }) ∧ batch.length = n ∧
      ∀ a ∈ batch, a.length = 16 ∧ ∀ c ∈ a, c ∈ allowedCharsV2 := by
  induction n generalizing w with
  | zero => exact ⟨[], w.rng, rfl, rfl, by simp⟩
  | succ n ih =>
    have h1 := genOnionV2_eq L w (draws_inRange L hI _ _)
    obtain ⟨rest, s, hrest, hl, hm⟩ := ih { w with rng := (draws L 16 w.rng).2 }
    refine ⟨(draws L 16 w.rng).1.map (fun idx => allowedCharsV2.getD idx.toNat 0) :: rest, s,
      ?_, by simp [hl], ?_⟩
    · simp only [addrListLoop, genAddr, if_true, h1, hrest]
    · intro a ha
      rcases List.mem_cons.1 ha with rfl | ha
      · refine ⟨by simp [draws_length], ?_⟩
        intro c hc
        simp only [List.mem_map] at hc
        obtain ⟨idx, hidx, rfl⟩ := hc
        have hr := draws_inRange L hI _ _ idx hidx
        exact (index_allowedCharsV2 idx hr.1 hr.2).2
      · exact hm a ha

/-- The batch loop for V3 does not fault when the key generations it needs
succeed; it touches the secure reader only. -/
theorem addrListLoop_v3 {ρ κ : Type} (L : Lib ρ κ) (hK : KeySized L) (n : Nat)
    (w : World ρ κ) (hok : firstKeyGenError L n w.entropy = none) :
    ∃ batch k, addrListLoop L 3 n w = (.ok batch, { w with entropy := k }) ∧ batch.length = n ∧
      ∀ a ∈ batch, a.length = 56 ∧ ∀ c ∈ a, IsLowerBase32 c ∧ c ≠ padChar ∧ ¬ (65 ≤ c ∧ c ≤ 90) := by
  induction n generalizing w with
  | zero => exact ⟨[], w.entropy, rfl, rfl, by simp⟩
  | succ n ih =>
    rcases hg : L.GenerateKey w.entropy with ⟨r, k1⟩
    cases r with
    | error e => simp [firstKeyGenError, hg] at hok
    | ok keys =>
      obtain ⟨pubKey, privKey⟩ := keys
      have hk := hK _ _ _ _ hg
      have hok1 : firstKeyGenError L n k1 = none := by simpa [firstKeyGenError, hg] using hok
      have h1 := genOnionV3_eq L w pubKey privKey k1 hg hk
      obtain ⟨rest, k, hrest, hl, hm⟩ := ih { w with entropy := k1 } hok1
      have hs := L.Sum256_size (bytesOf ".onion checksum" ++ pubKey ++ [3])
      have hlen : (pubKey ++ (L.Sum256 (bytesOf ".onion checksum" ++ pubKey ++ [3])).take 2
          ++ [3]).length = 5 * 7 := by
        simp only [List.length_append, List.length_take, hk, hs, List.length_singleton]
        decide
      refine ⟨ToLower (encodeBytes (pubKey ++
        (L.Sum256 (bytesOf ".onion checksum" ++ pubKey ++ [3])).take 2 ++ [3])) :: rest, k,
        ?_, by simp [hl], ?_⟩
      · have h32 : ¬ ((3 : Int) = 2) := by decide
        simp only [addrListLoop, genAddr, h32, if_false, if_true, h1, hrest]
      · intro a ha
        rcases List.mem_cons.1 ha with rfl | ha
        · exact toLower_encodeBytes_wellFormed 7 _ hlen
        · exact hm a ha

theorem sampleLib_keySized : KeySized sampleLib := by
  intro k k' pubKey privKey h
  simp only [sampleLib] at h
  split at h
  · simp only [Prod.mk.injEq, Except.ok.injEq] at h
    rw [← h.1.1]
    exact sampleKey_length k
  · simp at h

/-- C6: for a format version in {2, 3} and a count `n ≥ 0`, the batch `addrList`
built by `worker` has exactly `n` addresses, each well-formed for the version
(16 bytes of `allowedCharsV2` for V2, 56 lower-case base32 bytes for V3), the V3
batch being built when the `n` key generations it needs succeed; for `n = 0` the
batch is empty and there is no fault, whatever the key generator does. -/
theorem addrList_wellFormed {ρ κ : Type} (L : Lib ρ κ) (hI : IntnInRange L) (hK : KeySized L)
    (onionVer n : Int) (w : World ρ κ) (hv : onionVer = 2 ∨ onionVer = 3) (hn : 0 ≤ n)
    (hok : onionVer = 3 → firstKeyGenError L n.toNat w.entropy = none) :
    (∃ batch w', addrList L onionVer n w = (.ok batch, w') ∧ (batch.length : Int) = n ∧
      (onionVer = 2 → ∀ a ∈ batch, a.length = 16 ∧ ∀ c ∈ a, c ∈ allowedCharsV2) ∧
      (onionVer = 3 → ∀ a ∈ batch, a.length = 56 ∧
        ∀ c ∈ a, IsLowerBase32 c ∧ c ≠ padChar ∧ ¬ (65 ≤ c ∧ c ≤ 90))) ∧
    addrList L onionVer 0 w = (.ok [], w) := by
  have hneg : ¬ n < 0 := by omega
  refine ⟨?_, by simp [addrList, addrListLoop]⟩
  rcases hv with rfl | rfl
  · obtain ⟨batch, s, hb, hl, hm⟩ := addrListLoop_v2 L hI n.toNat w
    refine ⟨batch, _, by rw [addrList, if_neg hneg, hb], by omega, fun _ => hm, ?_⟩
    intro h
    exact absurd h (by decide)
  · obtain ⟨batch, k, hb, hl, hm⟩ := addrListLoop_v3 L hK n.toNat w (hok rfl)
    refine ⟨batch, _, by rw [addrList, if_neg hneg, hb], by omega, ?_, fun _ => hm⟩
    intro h
    exact absurd h (by decide)

/-- C6 applied to a V3 batch of two addresses on the sample packages. -/
theorem addrList_wellFormed_witness :
    IntnInRange sampleLib ∧ KeySized sampleLib ∧ ((3 : Int) = 2 ∨ (3 : Int) = 3) ∧
    (0 : Int) ≤ 2 ∧
    ((3 : Int) = 3 → firstKeyGenError sampleLib (2 : Int).toNat sampleWorld.entropy = none) ∧
    (∃ batch w', addrList sampleLib 3 2 sampleWorld = (.ok batch, w') ∧
      (batch.length : Int) = 2 ∧
      ((3 : Int) = 2 → ∀ a ∈ batch, a.length = 16 ∧ ∀ c ∈ a, c ∈ allowedCharsV2) ∧
      ((3 : Int) = 3 → ∀ a ∈ batch, a.length = 56 ∧
        ∀ c ∈ a, IsLowerBase32 c ∧ c ≠ padChar ∧ ¬ (65 ≤ c ∧ c ≤ 90))) ∧
    addrList sampleLib 3 0 sampleWorld = (.ok [], sampleWorld) :=
  ⟨sampleLib_intnInRange, sampleLib_keySized, Or.inr rfl, by decide, fun _ => rfl,
    addrList_wellFormed sampleLib sampleLib_intnInRange sampleLib_keySized 3 2 sampleWorld
      (Or.inr rfl) (by decide) (fun _ => rfl)⟩

/-! ## Theorems: faults -/

theorem keyGenMsg_ne (e : String) : keyGenMsg e ≠ noFormatMsg ∧ keyGenMsg e ≠ notMultipleMsg := by
  constructor <;> intro h <;> have := congrArg String.data h <;>
    simp [keyGenMsg, noFormatMsg, notMultipleMsg] at this

theorem writeMsg_ne (id ver : Int) (e : String) :
    writeMsg id ver e ≠ noFormatMsg ∧ writeMsg id ver e ≠ notMultipleMsg := by
  constructor <;> intro h <;> have := congrArg String.data h <;>
    simp [writeMsg, noFormatMsg, notMultipleMsg] at this

/-- A fault of a worker is never one of the two configuration errors. -/
theorem workerFault_not_configError (f : Fault) (h : IsWorkerFault f) : ¬ IsConfigError f := by
  rintro (hc | hc) <;> rcases h with rfl | ⟨e, rfl⟩ | ⟨id, ver, e, rfl⟩
  · cases hc
  · exact (keyGenMsg_ne e).1 (Fault.exit.inj hc).2
  · exact (writeMsg_ne id ver e).1 (Fault.exit.inj hc).2
  · cases hc
  · exact (keyGenMsg_ne e).2 (Fault.exit.inj hc).2
  · exact (writeMsg_ne id ver e).2 (Fault.exit.inj hc).2

theorem genOnionV2Loop_fault {ρ κ : Type} (L : Lib ρ κ) (n i : Nat) (address : List Nat) (s : ρ)
    (f : Fault) (h : (genOnionV2Loop L n i address s).1 = .error f) : f = .panic := by
  induction n generalizing i address s with
  | zero => simp [genOnionV2Loop] at h
  | succ n ih =>
    simp only [genOnionV2Loop] at h
    split at h
    · simp only [index] at *
      split at * <;> simp_all
    · split at h
      · simp only [assign] at *
        split at * <;> simp_all
      · exact ih _ _ _ h

theorem onionV3_fault {ρ κ : Type} (L : Lib ρ κ) (pubKey : List Nat) (f : Fault)
    (h : onionV3 L pubKey = .error f) : f = .panic := by
  have hcopy : ∀ (dst : List Nat) (i : Nat) (src : List Nat) (g : Fault),
      copyAt dst i src = .error g → g = .panic := by
    intro dst i src g hg
    by_cases hi : i ≤ dst.length
    · simp [copyAt, sliceFrom, hi] at hg
    · simp only [copyAt, sliceFrom, if_neg hi] at hg
      exact (Except.error.inj hg).symm
  have hassign : ∀ (xs : List Nat) (i v : Nat) (g : Fault),
      assign xs i v = .error g → g = .panic := by
    intro xs i v g hg
    simp only [assign] at hg
    split at hg <;> simp_all
  simp only [onionV3] at h
  split at h
  · rename_i g hg
    simp only [checksumArrayOf] at hg
    split at hg
    · rename_i g' hg'
      cases hg
      exact (Except.error.inj h) ▸ hcopy _ _ _ _ hg'
    · exact (Except.error.inj h) ▸ hassign _ _ _ _ hg
  · split at h
    · rename_i g hg
      simp only [addressArrayOf] at hg
      split at hg
      · rename_i g' hg'
        cases hg
        exact (Except.error.inj h) ▸ hcopy _ _ _ _ hg'
      · exact (Except.error.inj h) ▸ hassign _ _ _ _ hg
    · split at h
      · rename_i g hg
        simp only [Encode] at hg
        split at hg <;> simp_all
      · simp at h

/-- One address generation leaves the files and the launch log alone, and can
fault only by a panic or by the exit after a failed key generation. -/
theorem genAddr_spec {ρ κ : Type} (L : Lib ρ κ) (onionVer : Int) (w : World ρ κ) :
    (genAddr L onionVer w).2.files = w.files ∧ (genAddr L onionVer w).2.spawned = w.spawned ∧
      ∀ f, (genAddr L onionVer w).1 = .error f → f = .panic ∨ ∃ e, f = .exit 1 (keyGenMsg e) := by
  unfold genAddr
  split
  · refine ⟨rfl, rfl, ?_⟩
    intro f h
    exact Or.inl (genOnionV2Loop_fault L onionLenV2 0 (make onionLenV2) w.rng f h)
  · split
    · simp only [genOnionV3]
      split
      · exact ⟨rfl, rfl, fun f h => Or.inr ⟨_, (Except.error.inj h).symm⟩⟩
      · exact ⟨rfl, rfl, fun f h => Or.inl (onionV3_fault L _ f h)⟩
    · exact ⟨rfl, rfl, fun f h => by simp at h⟩

theorem addrListLoop_spec {ρ κ : Type} (L : Lib ρ κ) (onionVer : Int) (n : Nat) (w : World ρ κ) :
    (addrListLoop L onionVer n w).2.files = w.files ∧
      (addrListLoop L onionVer n w).2.spawned = w.spawned ∧
      ∀ f, (addrListLoop L onionVer n w).1 = .error f →
        f = .panic ∨ ∃ e, f = .exit 1 (keyGenMsg e) := by
  induction n generalizing w with
  | zero => exact ⟨rfl, rfl, fun f h => by simp [addrListLoop] at h⟩
  | succ n ih =>
    obtain ⟨g1, g2, g3⟩ := genAddr_spec L onionVer w
    simp only [addrListLoop]
    split
    · rename_i f w1 hg
      rw [hg] at g1 g2 g3
      exact ⟨g1, g2, fun f' h => g3 f' (by simpa using h)⟩
    · rename_i a w1 hg
      rw [hg] at g1 g2
      obtain ⟨i1, i2, i3⟩ := ih w1
      split
      · rename_i f w2 hl
        rw [hl] at i1 i2 i3
        exact ⟨i1.trans g1, i2.trans g2, fun f' h => i3 f' (by simpa using h)⟩
      · rename_i rest w2 hl
        rw [hl] at i1 i2
        exact ⟨i1.trans g1, i2.trans g2, fun f' h => by simp at h⟩

theorem addrList_spec {ρ κ : Type} (L : Lib ρ κ) (onionVer n : Int) (w : World ρ κ) :
    (addrList L onionVer n w).2.files = w.files ∧
      (addrList L onionVer n w).2.spawned = w.spawned ∧
      ∀ f, (addrList L onionVer n w).1 = .error f →
        f = .panic ∨ ∃ e, f = .exit 1 (keyGenMsg e) := by
  unfold addrList
  split
  · exact ⟨rfl, rfl, fun f h => Or.inl (Except.error.inj h).symm⟩
  · exact addrListLoop_spec L onionVer n.toNat w

/-- A worker leaves the launch log alone; when it faults it has written no file
and the fault is a worker fault; when it completes it has written one file. -/
theorem worker_spec {ρ κ : Type} (L : Lib ρ κ) (t : Task) (w : World ρ κ) :
    (worker L t w).2.spawned = w.spawned ∧
      (∀ f, (worker L t w).1 = .error f → IsWorkerFault f ∧ (worker L t w).2.files = w.files) ∧
      ((worker L t w).1 = .ok () → ∃ path content, (worker L t w).2.files = w.files ++ [(path, content)]) := by
  obtain ⟨a1, a2, a3⟩ := addrList_spec L t.onionVer t.numAddrGen w
  simp only [worker]
  split
  · rename_i f w1 ha
    rw [ha] at a1 a2 a3
    refine ⟨a2, ?_, fun h => by simp at h⟩
    intro f' h
    rcases a3 f' (by simpa using h) with h' | h'
    · exact ⟨Or.inl h', a1⟩
    · exact ⟨Or.inr (Or.inl h'), a1⟩
  · rename_i batch w1 ha
    rw [ha] at a1 a2
    split
    · rename_i e he
      refine ⟨a2, ?_, fun h => by simp at h⟩
      intro f' h
      exact ⟨Or.inr (Or.inr ⟨_, _, e, (Except.error.inj h).symm⟩), a1⟩
    · have a1' : w1.files = w.files := a1
      exact ⟨a2, fun f' h => by simp at h, fun _ =>
        ⟨addrFilePath L t.outputDir t.onionVer t.workerID, bytesJoin batch newline, by rw [a1']⟩⟩

theorem runWorkers_spec {ρ κ : Type} (L : Lib ρ κ) (ts : List Task) (w : World ρ κ) :
    (runWorkers L ts w).2.spawned = w.spawned ∧
      ∀ f, (runWorkers L ts w).1 = .error f → IsWorkerFault f := by
  induction ts generalizing w with
  | nil => exact ⟨rfl, fun f h => by simp [runWorkers] at h⟩
  | cons t ts ih =>
    obtain ⟨w1, w2, _⟩ := worker_spec L t w
    simp only [runWorkers]
    split
    · rename_i f w' hw
      rw [hw] at w1 w2
      exact ⟨w1, fun f' h => (w2 f' (by simpa using h)).1⟩
    · rename_i w' hw
      rw [hw] at w1
      obtain ⟨i1, i2⟩ := ih w'
      exact ⟨i1.trans w1, i2⟩

/-! ## Theorems: `main` -/

/-- What `main` does in each of its three cases. -/
theorem main_cases {ρ κ : Type} (L : Lib ρ κ) (f : Flags) (w : World ρ κ) :
    (f.v2 = false ∧ f.v3 = false ∧ main L f w = (.error (.exit 1 noFormatMsg), w)) ∨
    ((f.v2 = true ∨ f.v3 = true) ∧ ¬ (5000 : Int) ∣ f.numAddr ∧
      main L f w = (.error (.exit 1 notMultipleMsg), w)) ∨
    ((f.v2 = true ∨ f.v3 = true) ∧ (5000 : Int) ∣ f.numAddr ∧
      main L f w = runWorkers L (launches f) { w with spawned := w.spawned ++ launches f }) := by
  by_cases hfmt : (!f.v2 && !f.v3) = true
  · left
    have h2 : f.v2 = false ∧ f.v3 = false := by simpa using hfmt
    exact ⟨h2.1, h2.2, by simp only [main, hfmt, if_true]⟩
  · right
    have h2 : f.v2 = true ∨ f.v3 = true := by
      cases hv2 : f.v2 <;> cases hv3 : f.v3 <;> simp_all
    by_cases hm : Int.tmod f.numAddr 5000 = 0
    · right
      refine ⟨h2, Int.dvd_iff_tmod_eq_zero.2 hm, ?_⟩
      rw [main, if_neg hfmt, if_neg (by simp [hm])]
    · left
      refine ⟨h2, fun hd => hm (Int.dvd_iff_tmod_eq_zero.1 hd), ?_⟩
      rw [main, if_neg hfmt, if_pos hm]

/-- C7: `main` stops with a configuration error, that is with exit status 1 at
one of its two checks, if and only if no format is selected or the total count is
not a multiple of 5000; in that case the state is untouched: no worker has been
launched and no file has been written.  A total count of 7000 is such an input. -/
theorem main_configError_iff {ρ κ : Type} (L : Lib ρ κ) (f : Flags) (w : World ρ κ) :
    (((main L f w).1 = .error (.exit 1 noFormatMsg) ∨
        (main L f w).1 = .error (.exit 1 notMultipleMsg)) ↔
      ((f.v2 = false ∧ f.v3 = false) ∨ ¬ (5000 : Int) ∣ f.numAddr)) ∧
    (((f.v2 = false ∧ f.v3 = false) ∨ ¬ (5000 : Int) ∣ f.numAddr) →
      (main L f w).2 = w ∧ (main L f w).2.spawned = w.spawned ∧
        (main L f w).2.files = w.files) ∧
    (∀ v2 v3 dir, (main L ⟨v2, v3, 7000, dir⟩ w).2 = w ∧
      ((main L ⟨v2, v3, 7000, dir⟩ w).1 = .error (.exit 1 noFormatMsg) ∨
        (main L ⟨v2, v3, 7000, dir⟩ w).1 = .error (.exit 1 notMultipleMsg))) := by
  have key : ∀ g : Flags,
      (((main L g w).1 = .error (.exit 1 noFormatMsg) ∨
          (main L g w).1 = .error (.exit 1 notMultipleMsg)) ↔
        ((g.v2 = false ∧ g.v3 = false) ∨ ¬ (5000 : Int) ∣ g.numAddr)) ∧
      (((g.v2 = false ∧ g.v3 = false) ∨ ¬ (5000 : Int) ∣ g.numAddr) → (main L g w).2 = w) := by
    intro g
    rcases main_cases L g w with ⟨h2, h3, hm⟩ | ⟨hsel, hnd, hm⟩ | ⟨hsel, hd, hm⟩
    · rw [hm]
      exact ⟨⟨fun _ => Or.inl ⟨h2, h3⟩, fun _ => Or.inl rfl⟩, fun _ => rfl⟩
    · rw [hm]
      exact ⟨⟨fun _ => Or.inr hnd, fun _ => Or.inr rfl⟩, fun _ => rfl⟩
    · have hcond : ¬ ((g.v2 = false ∧ g.v3 = false) ∨ ¬ (5000 : Int) ∣ g.numAddr) := by
        rintro (⟨h2, h3⟩ | hnd)
        · rcases hsel with h | h <;> simp_all
        · exact hnd hd
      refine ⟨⟨?_, fun h => absurd h hcond⟩, fun h => absurd h hcond⟩
      intro h
      rw [hm] at h
      have hw : ∀ e, (runWorkers L (launches g) { w with spawned := w.spawned ++ launches g }).1 =
          .error e → ¬ IsConfigError e := fun e he =>
        workerFault_not_configError e ((runWorkers_spec L _ _).2 e he)
      rcases h with h | h
      · exact absurd (Or.inl rfl) (hw _ h)
      · exact absurd (Or.inr rfl) (hw _ h)
  refine ⟨(key f).1, ?_, ?_⟩
  · intro h
    have := (key f).2 h
    exact ⟨this, by rw [this], by rw [this]⟩
  · intro v2 v3 dir
    have hnd : ¬ (5000 : Int) ∣ (7000 : Int) := by decide
    exact ⟨(key ⟨v2, v3, 7000, dir⟩).2 (Or.inr hnd), (key ⟨v2, v3, 7000, dir⟩).1.2 (Or.inr hnd)⟩

/-- The launch loop in closed form: one worker for each index from `id` up to
`numJobs - 1`, in increasing order. -/
theorem launchLoop_eq (onionVer : Int) (outputDir : String) (numJobs : Int) (n : Nat) (id : Int)
    (h : (numJobs - id).toNat = n) :
    launchLoop onionVer outputDir numJobs id =
      (List.range n).map (fun i : Nat =>
        ({ workerID := id + i, onionVer := onionVer, numAddrGen := 5000,
           outputDir := outputDir } : Task)) := by
  induction n generalizing id with
  | zero =>
    rw [launchLoop, if_neg (by omega)]
    rfl
  | succ n ih =>
    rw [launchLoop, if_pos (by omega), ih (id + 1) (by omega), List.range_succ_eq_map]
    simp only [List.map_cons, List.map_map, Nat.cast_zero, add_zero, List.cons.injEq, true_and]
    apply List.map_congr_left
    intro i _
    simp only [Function.comp, Nat.succ_eq_add_one, Nat.cast_add, Nat.cast_one, Task.mk.injEq,
      and_true]
    omega

/-- The workers launched for a non-negative total count. -/
theorem launches_eq (f : Flags) (hT : 0 ≤ f.numAddr) :
    launches f =
      (if f.v2 = true then (List.range (f.numAddr / 5000).toNat).map (fun i : Nat =>
        ({ workerID := i, onionVer := 2, numAddrGen := 5000, outputDir := f.outputDir } : Task))
        else []) ++
      (if f.v3 = true then (List.range (f.numAddr / 5000).toNat).map (fun i : Nat =>
        ({ workerID := i, onionVer := 3, numAddrGen := 5000, outputDir := f.outputDir } : Task))
        else []) := by
  have hdiv : Int.tdiv f.numAddr 5000 = f.numAddr / 5000 :=
    Int.tdiv_eq_ediv hT (by decide)
  have hz : ∀ v : Int, launchLoop v f.outputDir 0 0 = [] := by
    intro v
    rw [launchLoop, if_neg (by decide)]
  unfold launches v2NumJobs v3NumJobs
  congr 1
  · by_cases h : f.v2 = true
    · rw [if_pos h, if_pos h, hdiv,
        launchLoop_eq 2 f.outputDir _ (f.numAddr / 5000).toNat 0 (by simp)]
      simp
    · rw [if_neg h, if_neg h, hz]
  · by_cases h : f.v3 = true
    · rw [if_pos h, if_pos h, hdiv,
        launchLoop_eq 3 f.outputDir _ (f.numAddr / 5000).toNat 0 (by simp)]
      simp
    · rw [if_neg h, if_neg h, hz]

/-- A batch that is built has as many addresses as iterations of the loop. -/
theorem addrListLoop_length {ρ κ : Type} (L : Lib ρ κ) (onionVer : Int) (n : Nat)
    (w w' : World ρ κ) (batch : List (List Nat))
    (h : addrListLoop L onionVer n w = (.ok batch, w')) : batch.length = n := by
  induction n generalizing w w' batch with
  | zero =>
    simp only [addrListLoop, Prod.mk.injEq, Except.ok.injEq] at h
    rw [← h.1]; rfl
  | succ n ih =>
    simp only [addrListLoop] at h
    split at h
    · simp at h
    · split at h
      · simp at h
      · rename_i rest w2 hl
        simp only [Prod.mk.injEq, Except.ok.injEq] at h
        rw [← h.1, List.length_cons, ih _ _ _ hl]

theorem addrList_length {ρ κ : Type} (L : Lib ρ κ) (onionVer n : Int)
    (w w' : World ρ κ) (batch : List (List Nat))
    (h : addrList L onionVer n w = (.ok batch, w')) : (batch.length : Int) = n := by
  unfold addrList at h
  split at h
  · simp at h
  · rw [addrListLoop_length L onionVer n.toNat w w' batch h]
    omega

/-- The worker indices launched for one format, in launch order. -/
theorem launches_ids (f : Flags) (hT : 0 ≤ f.numAddr) (v : Int) (hv : v = 2 ∨ v = 3) :
    ((launches f).filter (fun t => decide (t.onionVer = v))).map (fun t => t.workerID) =
      if (v = 2 ∧ f.v2 = true) ∨ (v = 3 ∧ f.v3 = true) then
        (List.range (f.numAddr / 5000).toNat).map (fun i : Nat => (i : Int))
      else [] := by
  rw [launches_eq f hT]
  rcases hv with rfl | rfl <;> cases f.v2 <;> cases f.v3 <;>
    simp [List.filter_append, List.filter_map, Function.comp_def]

/-- C8: for a total count `T ≥ 0` that is a multiple of 5000 and a non-empty
format selection, `main` launches for each selected format exactly `T / 5000`
workers, with the indices `0, 1, ..., T / 5000 - 1` in this order (each once),
each for 5000 addresses of that format, and none for a format that is not
selected.  `T = 15000` with V2 only gives three V2 workers; `T = 5000` with both
formats gives one V2 and one V3 worker. -/
theorem main_launches {ρ κ : Type} (L : Lib ρ κ) (f : Flags) (w : World ρ κ)
    (hT : 0 ≤ f.numAddr) (hd : (5000 : Int) ∣ f.numAddr) (hsel : f.v2 = true ∨ f.v3 = true) :
    (main L f w).2.spawned = w.spawned ++ launches f ∧
    launches f =
      (if f.v2 = true then (List.range (f.numAddr / 5000).toNat).map (fun i : Nat =>
        ({ workerID := i, onionVer := 2, numAddrGen := 5000, outputDir := f.outputDir } : Task))
        else []) ++
      (if f.v3 = true then (List.range (f.numAddr / 5000).toNat).map (fun i : Nat =>
        ({ workerID := i, onionVer := 3, numAddrGen := 5000, outputDir := f.outputDir } : Task))
        else []) ∧
    (((f.numAddr / 5000).toNat : Nat) : Int) = f.numAddr / 5000 ∧
    (∀ v : Int, v = 2 ∨ v = 3 →
      ((launches f).filter (fun t => decide (t.onionVer = v))).map (fun t => t.workerID) =
        if (v = 2 ∧ f.v2 = true) ∨ (v = 3 ∧ f.v3 = true) then
          (List.range (f.numAddr / 5000).toNat).map (fun i : Nat => (i : Int))
        else []) ∧
    (∀ t ∈ launches f, (t.onionVer = 2 ∨ t.onionVer = 3) ∧ t.numAddrGen = 5000 ∧
      ∀ (w1 w2 : World ρ κ) (batch : List (List Nat)),
        addrList L t.onionVer t.numAddrGen w1 = (.ok batch, w2) → batch.length = 5000) ∧
    (∀ dir, launches ⟨true, false, 15000, dir⟩ =
      [⟨0, 2, 5000, dir⟩, ⟨1, 2, 5000, dir⟩, ⟨2, 2, 5000, dir⟩]) ∧
    (∀ dir, launches ⟨true, true, 5000, dir⟩ = [⟨0, 2, 5000, dir⟩, ⟨0, 3, 5000, dir⟩]) := by
  refine ⟨?_, launches_eq f hT, ?_, fun v hv => launches_ids f hT v hv, ?_, ?_, ?_⟩
  · rcases main_cases L f w with ⟨h2, h3, _⟩ | ⟨_, hnd, _⟩ | ⟨_, _, hm⟩
    · rcases hsel with h | h <;> simp_all
    · exact absurd hd hnd
    · rw [hm, (runWorkers_spec L _ _).1]
  · have : 0 ≤ f.numAddr / 5000 := Int.ediv_nonneg hT (by decide)
    omega
  · intro t ht
    have hver : (t.onionVer = 2 ∨ t.onionVer = 3) ∧ t.numAddrGen = 5000 := by
      rw [launches_eq f hT] at ht
      rcases List.mem_append.1 ht with h | h
      · split at h
        · obtain ⟨i, _, rfl⟩ := List.mem_map.1 h
          exact ⟨Or.inl rfl, rfl⟩
        · simp at h
      · split at h
        · obtain ⟨i, _, rfl⟩ := List.mem_map.1 h
          exact ⟨Or.inr rfl, rfl⟩
        · simp at h
    refine ⟨hver.1, hver.2, ?_⟩
    intro w1 w2 batch hb
    have := addrList_length L _ _ w1 w2 batch hb
    rw [hver.2] at this
    omega
  · intro dir
    rw [launches_eq _ (show (0 : Int) ≤ 15000 by decide)]
    rfl
  · intro dir
    rw [launches_eq _ (show (0 : Int) ≤ 5000 by decide)]
    rfl

/-- C8 applied to a total count of 15000 with V2 selected. -/
theorem main_launches_witness :
    (0 : Int) ≤ 15000 ∧ (5000 : Int) ∣ 15000 ∧
    (main sampleLib ⟨true, false, 15000, "out"⟩ sampleWorld).2.spawned =
      sampleWorld.spawned ++ launches ⟨true, false, 15000, "out"⟩ ∧
    launches ⟨true, false, 15000, "out"⟩ =
      [⟨0, 2, 5000, "out"⟩, ⟨1, 2, 5000, "out"⟩, ⟨2, 2, 5000, "out"⟩] :=
  have h := main_launches sampleLib ⟨true, false, 15000, "out"⟩ sampleWorld (by decide)
    (by decide) (Or.inl rfl)
  ⟨by decide, by decide, h.1, h.2.2.2.2.2.1 "out"⟩

/-- The counts of the workers launched for one selected format add up to the total. -/
theorem launches_sum (f : Flags) (hT : 0 ≤ f.numAddr) (hd : (5000 : Int) ∣ f.numAddr) (v : Int)
    (hv : (v = 2 ∧ f.v2 = true) ∨ (v = 3 ∧ f.v3 = true)) :
    (((launches f).filter (fun t => decide (t.onionVer = v))).map
      (fun t => t.numAddrGen)).sum = f.numAddr := by
  have hn : 0 ≤ f.numAddr / 5000 := Int.ediv_nonneg hT (by decide)
  have hsum : ∀ n : Nat, ((List.range n).map (fun _ : Nat => (5000 : Int))).sum = 5000 * n := by
    intro n
    induction n with
    | zero => rfl
    | succ n ih =>
      rw [List.range_succ, List.map_append, List.sum_append, ih]
      simp only [List.map_cons, List.map_nil, List.sum_cons, List.sum_nil, Nat.cast_add,
        Nat.cast_one]
      omega
  have hcast : (((f.numAddr / 5000).toNat : Nat) : Int) = f.numAddr / 5000 := by omega
  have htot : 5000 * (f.numAddr / 5000) = f.numAddr := Int.mul_ediv_cancel' hd
  rw [launches_eq f hT]
  rcases hv with ⟨rfl, h2⟩ | ⟨rfl, h3⟩
  · rw [if_pos h2]
    cases f.v3 <;>
      simp [List.filter_append, List.filter_map, Function.comp_def, hsum, hcast] <;> omega
  · rw [if_pos h3]
    cases f.v2 <;>
      simp [List.filter_append, List.filter_map, Function.comp_def, hsum, hcast] <;> omega

/-- C9: for a total count `T ≥ 0` accepted by the checks of `main` and a selected
format, the counts of the workers launched for that format add up to exactly `T`,
and a launched worker that builds its batch generates exactly its count of
addresses: the partition into batches of 5000 loses and adds nothing. -/
theorem main_total {ρ κ : Type} (L : Lib ρ κ) (f : Flags) (w : World ρ κ)
    (hT : 0 ≤ f.numAddr) (hd : (5000 : Int) ∣ f.numAddr) (v : Int)
    (hv : (v = 2 ∧ f.v2 = true) ∨ (v = 3 ∧ f.v3 = true)) :
    (main L f w).2.spawned = w.spawned ++ launches f ∧
    (((launches f).filter (fun t => decide (t.onionVer = v))).map
      (fun t => t.numAddrGen)).sum = f.numAddr ∧
    ∀ t ∈ launches f, ∀ (w1 w2 : World ρ κ) (batch : List (List Nat)),
      addrList L t.onionVer t.numAddrGen w1 = (.ok batch, w2) →
        (batch.length : Int) = t.numAddrGen := by
  refine ⟨?_, launches_sum f hT hd v hv, ?_⟩
  · rcases main_cases L f w with ⟨h2, h3, _⟩ | ⟨_, hnd, _⟩ | ⟨_, _, hm⟩
    · rcases hv with ⟨_, h⟩ | ⟨_, h⟩ <;> simp_all
    · exact absurd hd hnd
    · rw [hm, (runWorkers_spec L _ _).1]
  · intro t _ w1 w2 batch hb
    exact addrList_length L _ _ w1 w2 batch hb

/-- C9 applied to a total count of 10000 with both formats selected, for V3. -/
theorem main_total_witness :
    (0 : Int) ≤ 10000 ∧ (5000 : Int) ∣ 10000 ∧
    (((launches ⟨true, true, 10000, "out"⟩).filter (fun t => decide (t.onionVer = 3))).map
      (fun t => t.numAddrGen)).sum = 10000 :=
  ⟨by decide, by decide,
    (main_total sampleLib ⟨true, true, 10000, "out"⟩ sampleWorld (by decide) (by decide) 3
      (Or.inr ⟨rfl, rfl⟩)).2.1⟩

/-- A V3 batch stops at the first failing key generation with the exit of
`genOnionV3`; the reader is left in the state after the failing call. -/
theorem addrListLoop_v3_fail {ρ κ : Type} (L : Lib ρ κ) (hK : KeySized L) (n : Nat)
    (w : World ρ κ) (e : String) (k : κ) (h : firstKeyGenError L n w.entropy = some (e, k)) :
    addrListLoop L 3 n w = (.error (.exit 1 (keyGenMsg e)), { w with entropy := k }) := by
  induction n generalizing w with
  | zero => simp [firstKeyGenError] at h
  | succ n ih =>
    have h32 : ¬ ((3 : Int) = 2) := by decide
    rcases hg : L.GenerateKey w.entropy with ⟨r, k1⟩
    cases r with
    | error e' =>
      simp only [firstKeyGenError, hg, Option.some.injEq, Prod.mk.injEq] at h
      obtain ⟨rfl, rfl⟩ := h
      simp only [addrListLoop, genAddr, h32, if_false, if_true, genOnionV3, hg]
    | ok keys =>
      obtain ⟨pubKey, privKey⟩ := keys
      have hk := hK _ _ _ _ hg
      have h' : firstKeyGenError L n k1 = some (e, k) := by
        simpa [firstKeyGenError, hg] using h
      have h1 := genOnionV3_eq L w pubKey privKey k1 hg hk
      have hrest := ih { w with entropy := k1 } h'
      simp only [addrListLoop, genAddr, h32, if_false, if_true, h1, hrest]

/-- C10: when key generation fails, `genOnionV3` returns no address but exits
with status 1; a batch of `n` V3 derivations in which a key generation fails ends
the worker, and with it the run, with that exit, no later key generation being
attempted, and the worker has written no file.  When the key generations succeed,
`genOnionV3` and the batch loop end without a fault. -/
theorem keyGen_failure {ρ κ : Type} (L : Lib ρ κ) (hK : KeySized L) (w : World ρ κ) (n : Int)
    (hn : 0 ≤ n) :
    (∀ e k, L.GenerateKey w.entropy = (.error e, k) →
      genOnionV3 L w = (.error (.exit 1 (keyGenMsg e)), { w with entropy := k })) ∧
    (∀ e k, firstKeyGenError L n.toNat w.entropy = some (e, k) →
      addrList L 3 n w = (.error (.exit 1 (keyGenMsg e)), { w with entropy := k }) ∧
      ∀ id dir ts,
        worker L ⟨id, 3, n, dir⟩ w = (.error (.exit 1 (keyGenMsg e)), { w with entropy := k }) ∧
        (worker L ⟨id, 3, n, dir⟩ w).2.files = w.files ∧
        runWorkers L (⟨id, 3, n, dir⟩ :: ts) w =
          (.error (.exit 1 (keyGenMsg e)), { w with entropy := k })) ∧
    (firstKeyGenError L n.toNat w.entropy = none →
      ∃ batch k, addrList L 3 n w = (.ok batch, { w with entropy := k })) ∧
    (∀ pubKey privKey k, L.GenerateKey w.entropy = (.ok (pubKey, privKey), k) →
      ∃ addr, genOnionV3 L w = (.ok addr, { w with entropy := k })) := by
  have hneg : ¬ n < 0 := by omega
  refine ⟨?_, ?_, ?_, ?_⟩
  · intro e k hg
    simp only [genOnionV3, hg]
  · intro e k hf
    have ha : addrList L 3 n w = (.error (.exit 1 (keyGenMsg e)), { w with entropy := k }) := by
      rw [addrList, if_neg hneg, addrListLoop_v3_fail L hK n.toNat w e k hf]
    refine ⟨ha, ?_⟩
    intro id dir ts
    have hw : worker L ⟨id, 3, n, dir⟩ w =
        (.error (.exit 1 (keyGenMsg e)), { w with entropy := k }) := by
      simp only [worker, ha]
    exact ⟨hw, by rw [hw], by simp only [runWorkers, hw]⟩
  · intro hf
    obtain ⟨batch, k, hb, _, _⟩ := addrListLoop_v3 L hK n.toNat w hf
    exact ⟨batch, k, by rw [addrList, if_neg hneg, hb]⟩
  · intro pubKey privKey k hg
    exact ⟨_, genOnionV3_eq L w pubKey privKey k hg (hK _ _ _ _ hg)⟩

/-- C10 applied to the sample key generator, which fails at its fifth call: a
batch of five fails without a file, a batch of two is built. -/
theorem keyGen_failure_witness :
    KeySized sampleLib ∧ (0 : Int) ≤ 5 ∧
    firstKeyGenError sampleLib (5 : Int).toNat sampleWorld.entropy =
      some ("entropy source exhausted", 5) ∧
    worker sampleLib ⟨0, 3, 5, "out"⟩ sampleWorld =
      (.error (.exit 1 (keyGenMsg "entropy source exhausted")),
        { sampleWorld with entropy := 5 }) ∧
    (worker sampleLib ⟨0, 3, 5, "out"⟩ sampleWorld).2.files = [] ∧
    firstKeyGenError sampleLib (2 : Int).toNat sampleWorld.entropy = none ∧
    ∃ batch k, addrList sampleLib 3 2 sampleWorld = (.ok batch, { sampleWorld with entropy := k }) :=
  have h5 := (keyGen_failure sampleLib sampleLib_keySized sampleWorld 5 (by decide)).2.1
    "entropy source exhausted" 5 rfl
  have h2 := (keyGen_failure sampleLib sampleLib_keySized sampleWorld 2 (by decide)).2.2.1 rfl
  ⟨sampleLib_keySized, by decide, rfl, (h5.2 0 "out" []).1, (h5.2 0 "out" []).2.1, rfl, h2⟩

/-! ## Theorems: no run-time panic in the two derivations -/

/-- C11: V2 derivation and V3 encoding never fail.  When every index drawn is in
`[0, 32)`, each read `allowedCharsV2[idx]` and each write `address[i]` of
`genOnionV2` is in bounds and the function returns its 16-byte buffer; for a
32-byte public key every copy and write into the 48-byte and the 35-byte buffer of
`genOnionV3` is in bounds, and the encoding of the 35 bytes has exactly the 56
bytes of the destination. -/
theorem derivations_inBounds {ρ κ : Type} (L : Lib ρ κ) (w : World ρ κ) (pubKey : List Nat)
    (hr : ∀ idx ∈ (draws L 16 w.rng).1, 0 ≤ idx ∧ idx < 32) (hk : pubKey.length = 32) :
    (∀ idx ∈ (draws L 16 w.rng).1, ∃ c, index allowedCharsV2 idx = .ok c) ∧
    (∀ (address : List Nat) (i c : Nat), address.length = onionLenV2 → i < onionLenV2 →
      ∃ address1, assign address i c = .ok address1 ∧ address1.length = onionLenV2) ∧
    (∃ addr, (genOnionV2 L w).1 = .ok addr ∧ addr.length = 16) ∧
    (∃ buf, checksumArrayOf pubKey = .ok buf ∧ buf.length = 48 ∧
      ∃ arr, addressArrayOf pubKey (L.Sum256 buf) = .ok arr ∧ arr.length = 35 ∧
        (encodeBytes arr).length = 56 ∧ (make 56).length = 56 ∧
        Encode (make 56) arr = .ok (encodeBytes arr)) ∧
    ∃ addr, onionV3 L pubKey = .ok addr ∧ addr.length = 56 := by
  have hp : (bytesOf ".onion checksum").length = 15 := by rw [bytesOf_onion_checksum]; rfl
  have hs := L.Sum256_size (bytesOf ".onion checksum" ++ pubKey ++ [3])
  have hlen : (pubKey ++ (L.Sum256 (bytesOf ".onion checksum" ++ pubKey ++ [3])).take 2
      ++ [3]).length = 5 * 7 := by
    simp only [List.length_append, List.length_take, hk, hs, List.length_singleton]
    decide
  have he := (encodeBytes_full 7 _ hlen).1
  refine ⟨?_, ?_, ?_, ?_, ?_⟩
  · intro idx hidx
    exact ⟨_, (index_allowedCharsV2 idx (hr idx hidx).1 (hr idx hidx).2).1⟩
  · intro address i c ha hi
    refine ⟨address.set i c, ?_, by simp [ha]⟩
    rw [assign, if_pos (by omega)]
  · exact ⟨_, by rw [genOnionV2_eq L w hr], by simp [draws_length]⟩
  · refine ⟨_, checksumArrayOf_eq pubKey hk, by simp [hp, hk], _,
      addressArrayOf_eq pubKey _ hk (by rw [hs]; decide), hlen, he, by simp [make], ?_⟩
    rw [Encode, if_pos (by rw [he]; simp [make]), he]
    have hd : List.drop (8 * 7) (make 56) = [] := List.drop_of_length_le (by simp [make])
    rw [hd, List.append_nil]
  · exact ⟨_, onionV3_eq L pubKey hk, (toLower_encodeBytes_wellFormed 7 _ hlen).1⟩

/-- C11 applied to the sample generator and the first sample key. -/
theorem derivations_inBounds_witness :
    (∀ idx ∈ (draws sampleLib 16 sampleWorld.rng).1, 0 ≤ idx ∧ idx < 32) ∧
    (sampleKey 0).length = 32 ∧
    (∃ addr, (genOnionV2 sampleLib sampleWorld).1 = .ok addr ∧ addr.length = 16) ∧
    ∃ addr, onionV3 sampleLib (sampleKey 0) = .ok addr ∧ addr.length = 56 :=
  have h := derivations_inBounds sampleLib sampleWorld (sampleKey 0)
    (draws_inRange sampleLib sampleLib_intnInRange 16 sampleWorld.rng) (sampleKey_length 0)
  ⟨draws_inRange sampleLib sampleLib_intnInRange 16 sampleWorld.rng, sampleKey_length 0,
    h.2.2.1, h.2.2.2.2⟩

/-! ## Theorems: determinism of V2 generation -/

/-- C12: V2 determinism.  Two generations of `n` V2 addresses that start from the
same state of the pseudo-random source (for instance the state after seeding with
20200701) give the same outcome, hence the same sequence of addresses, and leave
the source in the same state, whatever the rest of the program state is. -/
theorem addrList_v2_deterministic {ρ κ : Type} (L : Lib ρ κ) (n : Int) (w1 w2 : World ρ κ)
    (hs : w1.rng = w2.rng) :
    (addrList L 2 n w1).1 = (addrList L 2 n w2).1 ∧
      (addrList L 2 n w1).2.rng = (addrList L 2 n w2).2.rng ∧
      ∀ batch1 batch2 w1' w2', addrList L 2 n w1 = (.ok batch1, w1') →
        addrList L 2 n w2 = (.ok batch2, w2') → batch1 = batch2 ∧ w1'.rng = w2'.rng := by
  have hloop : ∀ (m : Nat) (u1 u2 : World ρ κ), u1.rng = u2.rng →
      (addrListLoop L 2 m u1).1 = (addrListLoop L 2 m u2).1 ∧
        (addrListLoop L 2 m u1).2.rng = (addrListLoop L 2 m u2).2.rng := by
    intro m
    induction m with
    | zero => intro u1 u2 h; exact ⟨rfl, h⟩
    | succ m ih =>
      intro u1 u2 h
      have hg1 : genAddr L 2 u1 = ((genOnionV2Loop L onionLenV2 0 (make onionLenV2) u1.rng).1,
          { u1 with rng := (genOnionV2Loop L onionLenV2 0 (make onionLenV2) u1.rng).2 }) := by
        simp [genAddr, genOnionV2]
      have hg2 : genAddr L 2 u2 = ((genOnionV2Loop L onionLenV2 0 (make onionLenV2) u1.rng).1,
          { u2 with rng := (genOnionV2Loop L onionLenV2 0 (make onionLenV2) u1.rng).2 }) := by
        simp [genAddr, genOnionV2, h]
      simp only [addrListLoop, hg1, hg2]
      cases (genOnionV2Loop L onionLenV2 0 (make onionLenV2) u1.rng).1 with
      | error f => exact ⟨rfl, rfl⟩
      | ok a =>
        obtain ⟨i1, i2⟩ := ih
          { u1 with rng := (genOnionV2Loop L onionLenV2 0 (make onionLenV2) u1.rng).2 }
          { u2 with rng := (genOnionV2Loop L onionLenV2 0 (make onionLenV2) u1.rng).2 } rfl
        simp only
        split <;> split <;> simp_all
  have hmain : (addrList L 2 n w1).1 = (addrList L 2 n w2).1 ∧
      (addrList L 2 n w1).2.rng = (addrList L 2 n w2).2.rng := by
    unfold addrList
    split
    · exact ⟨rfl, hs⟩
    · exact hloop n.toNat w1 w2 hs
  refine ⟨hmain.1, hmain.2, ?_⟩
  intro batch1 batch2 w1' w2' h1 h2
  rw [h1, h2] at hmain
  exact ⟨Except.ok.inj hmain.1, hmain.2⟩

/-- C12 applied to two states that share the seed 20200701 and differ elsewhere. -/
theorem addrList_v2_deterministic_witness :
    sampleWorld.rng = ({ sampleWorld with entropy := 3 } : World Nat Nat).rng ∧
    (addrList sampleLib 2 3 sampleWorld).1 =
      (addrList sampleLib 2 3 { sampleWorld with entropy := 3 }).1 ∧
    (addrList sampleLib 2 3 sampleWorld).2.rng =
      (addrList sampleLib 2 3 { sampleWorld with entropy := 3 }).2.rng :=
  have h := addrList_v2_deterministic sampleLib 3 sampleWorld { sampleWorld with entropy := 3 } rfl
  ⟨rfl, h.1, h.2.1⟩

/-! ## Theorems: the private key is not used -/

/-- C13: the V3 address does not depend on the private key.  Two key generations
that return the same public key, with whatever private keys, make `genOnionV3`
return the same address (the hash function being the same). -/
theorem genOnionV3_privKey_irrelevant {ρ κ ρ' κ' : Type} (L1 : Lib ρ κ) (L2 : Lib ρ' κ')
    (w1 : World ρ κ) (w2 : World ρ' κ') (pubKey privKey1 privKey2 : List Nat) (k1 : κ) (k2 : κ')
    (hsum : L1.Sum256 = L2.Sum256)
    (h1 : L1.GenerateKey w1.entropy = (.ok (pubKey, privKey1), k1))
    (h2 : L2.GenerateKey w2.entropy = (.ok (pubKey, privKey2), k2)) :
    (genOnionV3 L1 w1).1 = (genOnionV3 L2 w2).1 ∧ (genOnionV3 L1 w1).1 = onionV3 L1 pubKey := by
  have ho : onionV3 L1 pubKey = onionV3 L2 pubKey := by
    simp only [onionV3, hsum]
  simp only [genOnionV3, h1, h2, ho, and_self]

/-- C13 applied to two sample key generators that return the first sample public
key with different private keys. -/
theorem genOnionV3_privKey_irrelevant_witness :
    sampleLib.GenerateKey sampleWorld.entropy = (.ok (sampleKey 0, List.replicate 64 0), 1) ∧
    sampleLib2.GenerateKey sampleWorld.entropy = (.ok (sampleKey 0, List.replicate 64 100), 1) ∧
    List.replicate 64 0 ≠ List.replicate 64 100 ∧
    (genOnionV3 sampleLib sampleWorld).1 = (genOnionV3 sampleLib2 sampleWorld).1 :=
  ⟨rfl, rfl, by decide,
    (genOnionV3_privKey_irrelevant sampleLib sampleLib2 sampleWorld sampleWorld (sampleKey 0)
      (List.replicate 64 0) (List.replicate 64 100) 1 1 rfl rfl rfl).1⟩

/-! ## Theorems: the name of the output file -/

theorem digitChar_eq (d : Nat) (h : d < 10) : Nat.digitChar d = Char.ofNat (48 + d) := by
  interval_cases d <;> rfl

/-- Zero padding in terms of the little-endian digits. -/
theorem zeroPad_eq (width n : Nat) :
    zeroPad width n =
      ((Nat.digits 10 n ++ List.replicate (width - (Nat.digits 10 n).length) 0).reverse).map
        Nat.digitChar := by
  simp only [zeroPad, List.reverse_append, List.reverse_replicate, List.map_append,
    List.map_replicate]
  rfl

/-- The four low decimal digits of a number below 10000, least significant first. -/
theorem digits_pad_four (n : Nat) (h : n < 10000) :
    Nat.digits 10 n ++ List.replicate (4 - (Nat.digits 10 n).length) 0 =
      [n % 10, n / 10 % 10, n / 100 % 10, n / 1000] := by
  have hd : ∀ m : Nat, 0 < m → Nat.digits 10 m = m % 10 :: Nat.digits 10 (m / 10) :=
    fun m hm => Nat.digits_def' (by decide) hm
  rcases Nat.eq_zero_or_pos n with h0 | h0
  · subst h0; simp
  rw [hd n h0]
  rcases Nat.eq_zero_or_pos (n / 10) with h1 | h1
  · rw [h1, Nat.digits_zero]
    have e2 : n / 100 = 0 := by omega
    have e3 : n / 1000 = 0 := by omega
    simp [e2, e3]
  rw [hd _ h1]
  have q2 : n / 10 / 10 = n / 100 := by omega
  rw [q2]
  rcases Nat.eq_zero_or_pos (n / 100) with h2 | h2
  · rw [h2, Nat.digits_zero]
    have e3 : n / 1000 = 0 := by omega
    simp [e3]
  rw [hd _ h2]
  have q3 : n / 100 / 10 = n / 1000 := by omega
  rw [q3]
  rcases Nat.eq_zero_or_pos (n / 1000) with h3 | h3
  · rw [h3, Nat.digits_zero]
    simp
  rw [hd _ h3]
  have q4 : n / 1000 / 10 = 0 := by omega
  have q5 : n / 1000 % 10 = n / 1000 := by omega
  rw [q4, Nat.digits_zero, q5]
  rfl

/-- The verb `%04d` on a number in `0..9999`: its four decimal digits. -/
theorem fmt04d_four (id : Int) (h0 : 0 ≤ id) (h1 : id ≤ 9999) :
    fmt04d id = String.mk [Char.ofNat (48 + id.toNat / 1000), Char.ofNat (48 + id.toNat / 100 % 10),
      Char.ofNat (48 + id.toNat / 10 % 10), Char.ofNat (48 + id.toNat % 10)] := by
  have hn : id.natAbs = id.toNat := by omega
  have hlt : id.toNat < 10000 := by omega
  rw [fmt04d, if_neg (by omega), hn, zeroPad_eq, digits_pad_four _ hlt]
  simp only [List.reverse_cons, List.reverse_nil, List.nil_append, List.cons_append,
    List.map_cons, List.map_nil]
  rw [digitChar_eq _ (by omega), digitChar_eq _ (by omega), digitChar_eq _ (by omega),
    digitChar_eq _ (by omega)]

/-- C14: for a format in {V2, V3} and a worker index `0 ≤ id ≤ 9999`, the file
name chosen by `worker` is `"v2_"` or `"v3_"` (according to the format), then `id`
as exactly four decimal digits with leading zeros, then `".addr"`; the path
written is `filepath.Join(outputDir, name)`. -/
theorem addrFileName_four {ρ κ : Type} (L : Lib ρ κ) (outputDir : String) (onionVer id : Int)
    (hv : onionVer = 2 ∨ onionVer = 3) (h0 : 0 ≤ id) (h1 : id ≤ 9999) :
    addrFileName onionVer id =
      (if onionVer = 2 then "v2_" else "v3_") ++
        String.mk [Char.ofNat (48 + id.toNat / 1000), Char.ofNat (48 + id.toNat / 100 % 10),
          Char.ofNat (48 + id.toNat / 10 % 10), Char.ofNat (48 + id.toNat % 10)] ++ ".addr" ∧
    addrFilePath L outputDir onionVer id = L.Join outputDir (addrFileName onionVer id) ∧
    (addrFileName onionVer id).length = 12 := by
  have hf := fmt04d_four id h0 h1
  have hname : addrFileName onionVer id =
      (if onionVer = 2 then "v2_" else "v3_") ++
        String.mk [Char.ofNat (48 + id.toNat / 1000), Char.ofNat (48 + id.toNat / 100 % 10),
          Char.ofNat (48 + id.toNat / 10 % 10), Char.ofNat (48 + id.toNat % 10)] ++ ".addr" := by
    rcases hv with rfl | rfl
    · simp only [addrFileName, if_true, hf]
    · have h32 : ¬ ((3 : Int) = 2) := by decide
      simp only [addrFileName, h32, if_false, hf]
  refine ⟨hname, ?_, ?_⟩
  · rcases hv with rfl | rfl
    · simp only [addrFilePath, if_true]
    · have h32 : ¬ ((3 : Int) = 2) := by decide
      simp only [addrFilePath, h32, if_false, if_true]
  · have h2 : ("v2_" : String).length = 3 := rfl
    have h3 : ("v3_" : String).length = 3 := rfl
    have h5 : (".addr" : String).length = 5 := rfl
    rw [hname, String.length_append, String.length_append, h5]
    rcases hv with rfl | rfl
    · rw [if_pos rfl, h2]; rfl
    · rw [if_neg (by decide), h3]; rfl

/-- C14 applied to the V3 worker with index 42: the name is `v3_0042.addr`. -/
theorem addrFileName_four_witness :
    ((3 : Int) = 2 ∨ (3 : Int) = 3) ∧ (0 : Int) ≤ 42 ∧ (42 : Int) ≤ 9999 ∧
    addrFileName 3 42 = "v3_0042.addr" ∧
    addrFilePath sampleLib "out" 3 42 = "out/v3_0042.addr" :=
  have h := addrFileName_four sampleLib "out" 3 42 (Or.inr rfl) (by decide) (by decide)
  ⟨Or.inr rfl, by decide, by decide, h.1.trans (by decide), h.2.1.trans (by rw [h.1]; decide)⟩

/-! ## Theorems: the content of the output file -/

theorem splitByte_append (sep : Nat) (a rest : List Nat) (ha : sep ∉ a) :
    splitByte sep (a ++ sep :: rest) = a :: splitByte sep rest := by
  induction a with
  | nil => simp [splitByte]
  | cons c t ih =>
    have hc : c ≠ sep := fun h => ha (by simp [h])
    have ht : sep ∉ t := fun h => ha (by simp [h])
    simp [splitByte, hc, ih ht]

theorem splitByte_self (sep : Nat) (a : List Nat) (ha : sep ∉ a) : splitByte sep a = [a] := by
  induction a with
  | nil => rfl
  | cons c t ih =>
    have hc : c ≠ sep := fun h => ha (by simp [h])
    have ht : sep ∉ t := fun h => ha (by simp [h])
    simp [splitByte, hc, ih ht]

/-- Splitting the newline-joined batch at the newlines gives the batch back. -/
theorem splitByte_bytesJoin (batch : List (List Nat)) (hne : batch ≠ [])
    (hnl : ∀ a ∈ batch, 10 ∉ a) : splitByte 10 (bytesJoin batch newline) = batch := by
  induction batch with
  | nil => exact absurd rfl hne
  | cons a t ih =>
    cases t with
    | nil => simpa [bytesJoin] using splitByte_self 10 a (hnl a (by simp))
    | cons b rest =>
      have h1 := ih (by simp) (fun x hx => hnl x (by simp [hx]))
      have hj : bytesJoin (a :: b :: rest) newline = a ++ 10 :: bytesJoin (b :: rest) newline := by
        simp [bytesJoin, newline]
      rw [hj, splitByte_append 10 a _ (hnl a (by simp)), h1]

/-- The length of the newline-joined batch of addresses of one length. -/
theorem bytesJoin_length (batch : List (List Nat)) (len : Nat)
    (hl : ∀ a ∈ batch, a.length = len) :
    (bytesJoin batch newline).length = batch.length * len + (batch.length - 1) := by
  induction batch with
  | nil => simp [bytesJoin]
  | cons a t ih =>
    cases t with
    | nil => simp [bytesJoin, hl a (by simp)]
    | cons b rest =>
      have h1 := ih (fun x hx => hl x (by simp [hx]))
      simp only [bytesJoin, newline, List.length_append, List.length_cons, List.length_nil,
        hl a (by simp)] at h1 ⊢
      rw [h1]
      simp only [Nat.add_sub_cancel, Nat.add_mul, Nat.one_mul]
      omega

/-- A worker that completes has built its batch and written the newline-joined
batch to its file. -/
theorem worker_ok {ρ κ : Type} (L : Lib ρ κ) (t : Task) (w : World ρ κ)
    (hok : (worker L t w).1 = .ok ()) :
    ∃ batch w1, addrList L t.onionVer t.numAddrGen w = (.ok batch, w1) ∧
      (worker L t w).2.files = w.files ++
        [(addrFilePath L t.outputDir t.onionVer t.workerID, bytesJoin batch newline)] := by
  obtain ⟨a1, _, _⟩ := addrList_spec L t.onionVer t.numAddrGen w
  simp only [worker] at hok ⊢
  split at hok
  · simp at hok
  · rename_i batch w1 ha
    rw [ha] at a1
    have a1' : w1.files = w.files := a1
    refine ⟨batch, w1, ha, ?_⟩
    split
    · rename_i e he
      simp [he] at hok
    · simp only [a1']

/-- Every address of a batch that is built is well-formed for its version and
contains no newline. -/
theorem addrList_ok_wellFormed {ρ κ : Type} (L : Lib ρ κ) (hI : IntnInRange L) (hK : KeySized L)
    (onionVer n : Int) (w w' : World ρ κ) (batch : List (List Nat))
    (hv : onionVer = 2 ∨ onionVer = 3) (h : addrList L onionVer n w = (.ok batch, w')) :
    ∀ a ∈ batch, a.length = (if onionVer = 2 then 16 else 56) ∧ 10 ∉ a := by
  unfold addrList at h
  split at h
  · simp at h
  · rcases hv with rfl | rfl
    · obtain ⟨batch0, s, hb, _, hm⟩ := addrListLoop_v2 L hI n.toNat w
      rw [hb] at h
      have hbb : batch0 = batch := Except.ok.inj (Prod.mk.inj h).1
      subst hbb
      intro a ha
      refine ⟨by simpa using (hm a ha).1, ?_⟩
      intro h10
      have := (mem_allowedCharsV2_iff 10).1 ((hm a ha).2 10 h10)
      unfold IsLowerBase32 at this
      omega
    · cases hf : firstKeyGenError L n.toNat w.entropy with
      | some ek =>
        rw [addrListLoop_v3_fail L hK n.toNat w ek.1 ek.2 hf] at h
        simp at h
      | none =>
        obtain ⟨batch0, k, hb, _, hm⟩ := addrListLoop_v3 L hK n.toNat w hf
        rw [hb] at h
        have hbb : batch0 = batch := Except.ok.inj (Prod.mk.inj h).1
        subst hbb
        intro a ha
        have h32 : ¬ ((3 : Int) = 2) := by decide
        refine ⟨by simpa [h32] using (hm a ha).1, ?_⟩
        intro h10
        have := ((hm a ha).2 10 h10).1
        unfold IsLowerBase32 at this
        omega

/-- C15: the content `worker` writes is the batch in generation order, joined by
single newline bytes, without a trailing newline: for `n` addresses of length
`len` (16 for V2, 56 for V3) it has `n * len + (n - 1)` bytes, splitting it at the
newlines gives back the `n` addresses in order, and it is empty for `n = 0`. -/
theorem worker_content {ρ κ : Type} (L : Lib ρ κ) (hI : IntnInRange L) (hK : KeySized L)
    (t : Task) (w : World ρ κ) (hv : t.onionVer = 2 ∨ t.onionVer = 3)
    (hok : (worker L t w).1 = .ok ()) :
    ∃ batch w1, addrList L t.onionVer t.numAddrGen w = (.ok batch, w1) ∧
      (batch.length : Int) = t.numAddrGen ∧
      (worker L t w).2.files = w.files ++
        [(addrFilePath L t.outputDir t.onionVer t.workerID, bytesJoin batch newline)] ∧
      (∀ a ∈ batch, a.length = (if t.onionVer = 2 then 16 else 56)) ∧
      (bytesJoin batch newline).length =
        batch.length * (if t.onionVer = 2 then 16 else 56) + (batch.length - 1) ∧
      (batch ≠ [] → splitByte 10 (bytesJoin batch newline) = batch) ∧
      (batch = [] → bytesJoin batch newline = []) := by
  obtain ⟨batch, w1, ha, hfiles⟩ := worker_ok L t w hok
  have hwf := addrList_ok_wellFormed L hI hK _ _ w w1 batch hv ha
  refine ⟨batch, w1, ha, addrList_length L _ _ w w1 batch ha, hfiles,
    fun a h => (hwf a h).1, bytesJoin_length batch _ (fun a h => (hwf a h).1),
    fun hne => splitByte_bytesJoin batch hne (fun a h => (hwf a h).2), ?_⟩
  intro hb
  rw [hb]
  rfl

/-- C15 applied to a V3 worker for two addresses on the sample packages. -/
theorem worker_content_witness :
    IntnInRange sampleLib ∧ KeySized sampleLib ∧
    (worker sampleLib ⟨3, 3, 2, "out"⟩ sampleWorld).1 = .ok () ∧
    ∃ batch w1, addrList sampleLib 3 2 sampleWorld = (.ok batch, w1) ∧
      (batch.length : Int) = 2 ∧
      (worker sampleLib ⟨3, 3, 2, "out"⟩ sampleWorld).2.files = sampleWorld.files ++
        [(addrFilePath sampleLib "out" 3 3, bytesJoin batch newline)] ∧
      (∀ a ∈ batch, a.length = (if (3 : Int) = 2 then 16 else 56)) ∧
      (bytesJoin batch newline).length =
        batch.length * (if (3 : Int) = 2 then 16 else 56) + (batch.length - 1) ∧
      (batch ≠ [] → splitByte 10 (bytesJoin batch newline) = batch) ∧
      (batch = [] → bytesJoin batch newline = []) :=
  ⟨sampleLib_intnInRange, sampleLib_keySized, rfl,
    worker_content sampleLib sampleLib_intnInRange sampleLib_keySized ⟨3, 3, 2, "out"⟩
      sampleWorld (Or.inr rfl) rfl⟩

/-! ## Theorems: V2 addresses and index sequences -/

theorem allowedCharsV2_nodup : allowedCharsV2.Nodup := by decide

theorem getD_allowedCharsV2_inj (i j : Int) (hi : 0 ≤ i ∧ i < 32) (hj : 0 ≤ j ∧ j < 32)
    (h : allowedCharsV2.getD i.toNat 0 = allowedCharsV2.getD j.toNat 0) : i = j := by
  have hlen : allowedCharsV2.length = 32 := rfl
  have hi' : i.toNat < allowedCharsV2.length := by omega
  have hj' : j.toNat < allowedCharsV2.length := by omega
  rw [List.getD_eq_getElem _ _ hi', List.getD_eq_getElem _ _ hj'] at h
  have h1 := List.indexOf_getElem allowedCharsV2_nodup i.toNat hi'
  have h2 := List.indexOf_getElem allowedCharsV2_nodup j.toNat hj'
  rw [h] at h1
  have : i.toNat = j.toNat := h1.symm.trans h2
  omega

theorem v2OfIndices_injective (xs ys : List Int) (hx : ∀ i ∈ xs, 0 ≤ i ∧ i < 32)
    (hy : ∀ i ∈ ys, 0 ≤ i ∧ i < 32) (h : v2OfIndices xs = v2OfIndices ys) : xs = ys := by
  induction xs generalizing ys with
  | nil =>
    cases ys with
    | nil => rfl
    | cons y t => simp [v2OfIndices] at h
  | cons x t ih =>
    cases ys with
    | nil => simp [v2OfIndices] at h
    | cons y u =>
      simp only [v2OfIndices, List.map_cons, List.cons.injEq] at h
      have hxy := getD_allowedCharsV2_inj x y (hx x (by simp)) (hy y (by simp)) h.1
      have ht := ih u (fun i hi => hx i (by simp [hi])) (fun i hi => hy i (by simp [hi])) h.2
      rw [hxy, ht]

theorem v2OfIndices_surjective (a : List Nat) (ha : ∀ c ∈ a, c ∈ allowedCharsV2) :
    ∃ xs : List Int, xs.length = a.length ∧ (∀ i ∈ xs, 0 ≤ i ∧ i < 32) ∧ v2OfIndices xs = a := by
  have hlen : allowedCharsV2.length = 32 := rfl
  refine ⟨a.map (fun c => (allowedCharsV2.indexOf c : Int)), by simp, ?_, ?_⟩
  · intro i hi
    obtain ⟨c, hc, rfl⟩ := List.mem_map.1 hi
    have := List.indexOf_lt_length.2 (ha c hc)
    omega
  · induction a with
    | nil => rfl
    | cons c t ih =>
      have hlt := List.indexOf_lt_length.2 (ha c (by simp))
      have ht := ih (fun x hx => ha x (by simp [hx]))
      simp only [v2OfIndices, List.map_cons, List.map_map, List.cons.injEq, Int.toNat_ofNat] at ht ⊢
      refine ⟨?_, ht⟩
      rw [List.getD_eq_getElem _ _ hlt]
      exact List.getElem_indexOf hlt

theorem draws_replayLib (n : Nat) (xs : List Int) (h : xs.length = n) :
    draws replayLib n xs = (xs, []) := by
  induction n generalizing xs with
  | zero =>
    have : xs = [] := List.length_eq_zero.1 h
    subst this
    rfl
  | succ n ih =>
    match xs, h with
    | x :: t, h =>
      have ht : t.length = n := by simpa using h
      have hi : replayLib.Intn 32 (x :: t) = (x, t) := rfl
      simp only [draws, hi, ih t ht]

/-- C16: `genOnionV2` as a function of the 16 indices it draws is a bijection
between the index sequences in `[0, 32)^16` and the 16-byte strings over the
alphabet.  `allowedCharsV2` has 32 pairwise distinct symbols; position `i` of the
address is `allowedCharsV2[i-th index]`; distinct index sequences give distinct
addresses; every string over the alphabet comes from an index sequence, and every
such sequence is what some pseudo-random source produces. -/
theorem genOnionV2_bijection {ρ κ : Type} (L : Lib ρ κ) (w : World ρ κ)
    (hr : ∀ idx ∈ (draws L 16 w.rng).1, 0 ≤ idx ∧ idx < 32) :
    allowedCharsV2.length = 32 ∧ allowedCharsV2.Nodup ∧
    (genOnionV2 L w).1 = .ok (v2OfIndices (draws L 16 w.rng).1) ∧
    (∀ i : Nat, i < 16 → (v2OfIndices (draws L 16 w.rng).1)[i]? =
      ((draws L 16 w.rng).1[i]?).map (fun idx => allowedCharsV2.getD idx.toNat 0)) ∧
    (∀ xs ys : List Int, xs.length = 16 → ys.length = 16 → (∀ i ∈ xs, 0 ≤ i ∧ i < 32) →
      (∀ i ∈ ys, 0 ≤ i ∧ i < 32) → v2OfIndices xs = v2OfIndices ys → xs = ys) ∧
    (∀ a : List Nat, a.length = 16 → (∀ c ∈ a, c ∈ allowedCharsV2) →
      ∃ xs : List Int, xs.length = 16 ∧ (∀ i ∈ xs, 0 ≤ i ∧ i < 32) ∧ v2OfIndices xs = a ∧
        ∀ (k : Nat) (files : List (String × List Nat)) (spawned : List Task),
          (genOnionV2 replayLib ⟨xs, k, files, spawned⟩).1 = .ok a) := by
  refine ⟨rfl, allowedCharsV2_nodup, ?_, ?_, ?_, ?_⟩
  · rw [genOnionV2_eq L w hr]; rfl
  · intro i _
    simp [v2OfIndices]
  · intro xs ys _ _ hx hy h
    exact v2OfIndices_injective xs ys hx hy h
  · intro a hl ha
    obtain ⟨xs, hxl, hxr, hxa⟩ := v2OfIndices_surjective a ha
    refine ⟨xs, hxl.trans hl, hxr, hxa, ?_⟩
    intro k files spawned
    have hd := draws_replayLib 16 xs (hxl.trans hl)
    have hr' : ∀ idx ∈ (draws replayLib 16 (⟨xs, k, files, spawned⟩ : World (List Int) Nat).rng).1,
        0 ≤ idx ∧ idx < 32 := by
      intro idx hidx
      rw [hd] at hidx
      exact hxr idx hidx
    rw [genOnionV2_eq replayLib _ hr', hd, ← hxa]
    rfl

/-- C16 applied to the sample generator seeded with 20200701. -/
theorem genOnionV2_bijection_witness :
    (∀ idx ∈ (draws sampleLib 16 sampleWorld.rng).1, 0 ≤ idx ∧ idx < 32) ∧
    allowedCharsV2.length = 32 ∧ allowedCharsV2.Nodup ∧
    (genOnionV2 sampleLib sampleWorld).1 = .ok (v2OfIndices (draws sampleLib 16 sampleWorld.rng).1) :=
  have hr := draws_inRange sampleLib sampleLib_intnInRange 16 sampleWorld.rng
  have h := genOnionV2_bijection sampleLib sampleWorld hr
  ⟨hr, h.1, h.2.1, h.2.2.1⟩

/-! ## Theorems: the shape of a V3 address -/

/-- Encoding distributes over a prefix of full quanta. -/
theorem encodeBytes_append (k : Nat) (xs ys : List Nat) (h : xs.length = 5 * k) :
    encodeBytes (xs ++ ys) = encodeBytes xs ++ encodeBytes ys := by
  induction k generalizing xs with
  | zero =>
    have : xs = [] := List.length_eq_zero.1 (by simpa using h)
    subst this
    simp [encodeBytes]
  | succ k ih =>
    match xs, h with
    | s0 :: s1 :: s2 :: s3 :: s4 :: rest, h =>
      have hr : rest.length = 5 * k := by simp at h; omega
      have hra : rest.append ys = rest ++ ys := rfl
      simp only [List.cons_append, encodeBytes, hra, ih rest hr, List.append_assoc]

/-- The 35 encoded bytes split into six full quanta of the public key and a last
quantum made of its last two bytes, the checksum and the version byte. -/
theorem split35 (pk cs : List Nat) (hk : pk.length = 32) (hc : cs.length = 2) :
    ∃ p30 p31 c0 c1, pk = pk.take 30 ++ [p30, p31] ∧ cs = [c0, c1] ∧
      pk ++ cs ++ [3] = pk.take 30 ++ [p30, p31, c0, c1, 3] := by
  have hd : (pk.drop 30).length = 2 := by simp [hk]
  match hdp : pk.drop 30, hd, cs, hc with
  | [p30, p31], _, [c0, c1], _ =>
    have hpk : pk = pk.take 30 ++ [p30, p31] := by
      rw [← hdp, List.take_append_drop]
    refine ⟨p30, p31, c0, c1, hpk, rfl, ?_⟩
    conv_lhs => rw [hpk]
    simp

/-- The encoding of the 35 bytes: 48 symbols for the first 30 bytes of the public
key, then the eight symbols of the last quantum. -/
theorem encodeBytes_35 (pk : List Nat) (p30 p31 c0 c1 : Nat) (hk : pk.length = 32) :
    encodeBytes (pk.take 30 ++ [p30, p31, c0, c1, 3]) =
      encodeBytes (pk.take 30) ++ (unpack p30 p31 c0 c1 3).map encodeSym ∧
    (encodeBytes (pk.take 30)).length = 48 := by
  have h30 : (pk.take 30).length = 5 * 6 := by simp [hk]
  refine ⟨?_, (encodeBytes_full 6 _ h30).1⟩
  rw [encodeBytes_append 6 _ _ h30]
  simp [encodeBytes]

theorem toLower_inj (x y : List Nat) (hx : ∀ c ∈ x, c ∈ encodeStd) (hy : ∀ c ∈ y, c ∈ encodeStd)
    (h : ToLower x = ToLower y) : x = y := by
  rw [← toUpper_toLower x hx, ← toUpper_toLower y hy, h]

theorem encodeSym_inj (a b : Nat) (h : encodeSym a = encodeSym b) : a &&& 31 = b &&& 31 := by
  have h1 := decodeMap_encodeSym a
  rw [h, decodeMap_encodeSym b] at h1
  exact (Option.some.inj h1).symm

/-- The first 52 symbols of the encoding of the 35 bytes. -/
theorem take52_encode (pk : List Nat) (p30 p31 c0 c1 : Nat) (hk : pk.length = 32) :
    (ToLower (encodeBytes (pk.take 30 ++ [p30, p31, c0, c1, 3]))).take 52 =
      ToLower (encodeBytes (pk.take 30) ++
        [encodeSym (p30 >>> 3),
         encodeSym (((p31 >>> 6) &&& 0x1F) ||| (((p30 <<< 2) % 256) &&& 0x1F)),
         encodeSym ((p31 >>> 1) &&& 0x1F),
         encodeSym (((c0 >>> 4) &&& 0x1F) ||| (((p31 <<< 4) % 256) &&& 0x1F))]) := by
  obtain ⟨he, hl⟩ := encodeBytes_35 pk p30 p31 c0 c1 hk
  rw [he, ToLower, ← List.map_take, List.take_append_eq_append_take, hl,
    List.take_of_length_le (by omega)]
  rfl

/-- Two 32-byte public keys whose addresses agree on the first 52 symbols are equal. -/
theorem onionV3_prefix_inj {ρ κ : Type} (L : Lib ρ κ) (pk1 pk2 a1 a2 : List Nat)
    (hk1 : pk1.length = 32) (hk2 : pk2.length = 32) (hb1 : ∀ b ∈ pk1, b < 256)
    (hb2 : ∀ b ∈ pk2, b < 256) (h1 : onionV3 L pk1 = .ok a1) (h2 : onionV3 L pk2 = .ok a2)
    (h : a1.take 52 = a2.take 52) : pk1 = pk2 := by
  have hcs : ∀ pk : List Nat,
      ((L.Sum256 (bytesOf ".onion checksum" ++ pk ++ [3])).take 2).length = 2 := by
    intro pk
    rw [List.length_take, L.Sum256_size]; decide
  obtain ⟨p30, p31, c0, c1, hp1, hc1, hs1⟩ := split35 pk1 _ hk1 (hcs pk1)
  obtain ⟨q30, q31, d0, d1, hp2, hc2, hs2⟩ := split35 pk2 _ hk2 (hcs pk2)
  rw [onionV3_eq L pk1 hk1, hs1] at h1
  rw [onionV3_eq L pk2 hk2, hs2] at h2
  rw [← Except.ok.inj h1, ← Except.ok.inj h2, take52_encode pk1 p30 p31 c0 c1 hk1,
    take52_encode pk2 q30 q31 d0 d1 hk2] at h
  have h30a : (pk1.take 30).length = 5 * 6 := by simp [hk1]
  have h30b : (pk2.take 30).length = 5 * 6 := by simp [hk2]
  have hmem : ∀ (pk : List Nat) (s0 s1 s2 s3 : Nat), (pk.take 30).length = 5 * 6 →
      ∀ c ∈ encodeBytes (pk.take 30) ++ [encodeSym s0, encodeSym s1, encodeSym s2, encodeSym s3],
        c ∈ encodeStd := by
    intro pk s0 s1 s2 s3 hl c hc
    rcases List.mem_append.1 hc with hc | hc
    · exact (encodeBytes_full 6 _ hl).2 c hc
    · simp only [List.mem_cons, List.mem_singleton, List.mem_nil_iff, or_false] at hc
      rcases hc with rfl | rfl | rfl | rfl <;> exact encodeSym_mem _
  have hup := toLower_inj _ _ (hmem pk1 _ _ _ _ h30a) (hmem pk2 _ _ _ _ h30b) h
  have hlen : (encodeBytes (pk1.take 30)).length = (encodeBytes (pk2.take 30)).length := by
    rw [(encodeBytes_full 6 _ h30a).1, (encodeBytes_full 6 _ h30b).1]
  obtain ⟨hE, hQ⟩ := List.append_inj hup hlen
  have hd1 := decodeBytes_encodeBytes 6 _ h30a (fun b hb => hb1 b (List.mem_of_mem_take hb))
  have hd2 := decodeBytes_encodeBytes 6 _ h30b (fun b hb => hb2 b (List.mem_of_mem_take hb))
  rw [hE, hd2] at hd1
  have htake : pk2.take 30 = pk1.take 30 := Option.some.inj hd1
  have bp30 : p30 < 256 := hb1 p30 (by rw [hp1]; simp)
  have bp31 : p31 < 256 := hb1 p31 (by rw [hp1]; simp)
  have bq30 : q30 < 256 := hb2 q30 (by rw [hp2]; simp)
  have bq31 : q31 < 256 := hb2 q31 (by rw [hp2]; simp)
  have bc : ∀ (pk : List Nat) (c : Nat),
      c ∈ (L.Sum256 (bytesOf ".onion checksum" ++ pk ++ [3])).take 2 → c < 256 :=
    fun pk c hc => L.Sum256_byte _ c (List.mem_of_mem_take hc)
  have bc0 : c0 < 256 := bc pk1 c0 (by rw [hc1]; simp)
  have bc1 : c1 < 256 := bc pk1 c1 (by rw [hc1]; simp)
  have bd0 : d0 < 256 := bc pk2 d0 (by rw [hc2]; simp)
  have bd1 : d1 < 256 := bc pk2 d1 (by rw [hc2]; simp)
  have ua := unpack_arith p30 p31 c0 c1 3 bp30 bp31 bc0 bc1 (by decide)
  have ub := unpack_arith q30 q31 d0 d1 3 bq30 bq31 bd0 bd1 (by decide)
  simp only [unpack, List.map_cons, List.map_nil, List.cons.injEq, and_true] at ua ub
  obtain ⟨a0, a1', a2', a3', _⟩ := ua
  obtain ⟨b0, b1', b2', b3', _⟩ := ub
  simp only [List.cons.injEq, and_true] at hQ
  obtain ⟨g0, g1, g2, g3⟩ := hQ
  have f0 := encodeSym_inj _ _ g0
  have f1 := encodeSym_inj _ _ g1
  have f2 := encodeSym_inj _ _ g2
  have f3 := encodeSym_inj _ _ g3
  rw [a0, b0] at f0
  rw [a1', b1'] at f1
  rw [a2', b2'] at f2
  have e30 : p30 = q30 := by omega
  have e31 : p31 = q31 := by omega
  rw [hp1, hp2, htake, e30, e31]

/-- C17: the V3 address is an injective function of the public key.  For two
distinct 32-byte public keys the addresses returned by `genOnionV3` differ, and
they differ already within their first 52 characters. -/
theorem genOnionV3_injective {ρ κ : Type} (L : Lib ρ κ) (w1 w2 : World ρ κ)
    (pk1 pk2 sk1 sk2 : List Nat) (k1 k2 : κ)
    (hg1 : L.GenerateKey w1.entropy = (.ok (pk1, sk1), k1))
    (hg2 : L.GenerateKey w2.entropy = (.ok (pk2, sk2), k2))
    (hk1 : pk1.length = 32) (hk2 : pk2.length = 32) (hb1 : ∀ b ∈ pk1, b < 256)
    (hb2 : ∀ b ∈ pk2, b < 256) (hne : pk1 ≠ pk2) :
    ∃ a1 a2, (genOnionV3 L w1).1 = .ok a1 ∧ (genOnionV3 L w2).1 = .ok a2 ∧
      a1 ≠ a2 ∧ a1.take 52 ≠ a2.take 52 := by
  have h1 := onionV3_eq L pk1 hk1
  have h2 := onionV3_eq L pk2 hk2
  have hpre : ∀ a1 a2, onionV3 L pk1 = .ok a1 → onionV3 L pk2 = .ok a2 →
      a1.take 52 ≠ a2.take 52 := fun a1 a2 e1 e2 h =>
    hne (onionV3_prefix_inj L pk1 pk2 a1 a2 hk1 hk2 hb1 hb2 e1 e2 h)
  refine ⟨_, _, by simp only [genOnionV3, hg1, h1], by simp only [genOnionV3, hg2, h2], ?_,
    hpre _ _ h1 h2⟩
  intro h
  exact hpre _ _ h1 h2 (by rw [h])

/-- C17 applied to the first two keys of the sample key generator. -/
theorem genOnionV3_injective_witness :
    sampleLib.GenerateKey 0 = (.ok (sampleKey 0, List.replicate 64 0), 1) ∧
    sampleLib.GenerateKey 1 = (.ok (sampleKey 1, List.replicate 64 1), 2) ∧
    sampleKey 0 ≠ sampleKey 1 ∧
    ∃ a1 a2, (genOnionV3 sampleLib sampleWorld).1 = .ok a1 ∧
      (genOnionV3 sampleLib { sampleWorld with entropy := 1 }).1 = .ok a2 ∧
      a1 ≠ a2 ∧ a1.take 52 ≠ a2.take 52 :=
  ⟨rfl, rfl, by decide,
    genOnionV3_injective sampleLib sampleWorld { sampleWorld with entropy := 1 } (sampleKey 0)
      (sampleKey 1) (List.replicate 64 0) (List.replicate 64 1) 1 2 rfl rfl (sampleKey_length 0)
      (sampleKey_length 1) (sampleKey_byte 0) (sampleKey_byte 1) (by decide)⟩

/-! ## Theorems: distinct workers, distinct files -/

theorem ofDigits_replicate_zero (k : Nat) : Nat.ofDigits 10 (List.replicate k 0) = 0 := by
  induction k with
  | zero => rfl
  | succ k ih => simp [List.replicate_succ, Nat.ofDigits_cons, ih]

theorem digitChar_toNat (d : Nat) (h : d < 10) : (Nat.digitChar d).toNat - 48 = d := by
  interval_cases d <;> rfl

/-- Reading back a zero-padded number gives the number. -/
theorem decimalValue_zeroPad (width n : Nat) : decimalValue (zeroPad width n) = n := by
  have hmap : ∀ l : List Nat, (∀ d ∈ l, d < 10) →
      l.map (fun d => (Nat.digitChar d).toNat - 48) = l := by
    intro l hl
    induction l with
    | nil => rfl
    | cons d t ih =>
      simp only [List.map_cons, List.cons.injEq]
      exact ⟨digitChar_toNat d (hl d (by simp)), ih (fun x hx => hl x (by simp [hx]))⟩
  have hlt : ∀ d ∈ Nat.digits 10 n ++ List.replicate (width - (Nat.digits 10 n).length) 0,
      d < 10 := by
    intro d hd
    rcases List.mem_append.1 hd with h | h
    · exact Nat.digits_lt_base (by decide) h
    · rw [(List.mem_replicate.1 h).2]; decide
  rw [decimalValue, zeroPad_eq, ← List.map_reverse, List.reverse_reverse, List.map_map]
  have hcomp : ((fun c : Char => c.toNat - 48) ∘ Nat.digitChar) =
      fun d => (Nat.digitChar d).toNat - 48 := rfl
  rw [hcomp, hmap _ hlt, Nat.ofDigits_append, Nat.ofDigits_digits, ofDigits_replicate_zero]
  simp

/-- The verb `%04d` is injective on the non-negative numbers. -/
theorem fmt04d_injective (id1 id2 : Int) (h1 : 0 ≤ id1) (h2 : 0 ≤ id2)
    (h : fmt04d id1 = fmt04d id2) : id1 = id2 := by
  rw [fmt04d, if_neg (by omega), fmt04d, if_neg (by omega)] at h
  have hz : zeroPad 4 id1.natAbs = zeroPad 4 id2.natAbs := by
    have := congrArg String.data h
    simpa using this
  have hv := congrArg decimalValue hz
  rw [decimalValue_zeroPad, decimalValue_zeroPad] at hv
  omega

/-- The file name determines the format and the worker index. -/
theorem addrFileName_inj (v1 v2 id1 id2 : Int) (hv1 : v1 = 2 ∨ v1 = 3) (hv2 : v2 = 2 ∨ v2 = 3)
    (h1 : 0 ≤ id1) (h2 : 0 ≤ id2) (h : addrFileName v1 id1 = addrFileName v2 id2) :
    v1 = v2 ∧ id1 = id2 := by
  have h32 : ¬ ((3 : Int) = 2) := by decide
  have hd := congrArg String.data h
  rcases hv1 with rfl | rfl <;> rcases hv2 with rfl | rfl <;>
    simp only [addrFileName, if_true, h32, if_false, String.data_append] at hd
  · refine ⟨rfl, fmt04d_injective id1 id2 h1 h2 ?_⟩
    have := List.append_cancel_left (List.append_cancel_right hd)
    exact String.ext this
  · exact absurd hd (by simp)
  · exact absurd hd (by simp)
  · refine ⟨rfl, fmt04d_injective id1 id2 h1 h2 ?_⟩
    have := List.append_cancel_left (List.append_cancel_right hd)
    exact String.ext this

/-- The workers `main` launches, for any flag values. -/
theorem launches_all (f : Flags) :
    launches f =
      (List.range (v2NumJobs f).toNat).map (fun i : Nat =>
        ({ workerID := i, onionVer := 2, numAddrGen := 5000, outputDir := f.outputDir } : Task)) ++
      (List.range (v3NumJobs f).toNat).map (fun i : Nat =>
        ({ workerID := i, onionVer := 3, numAddrGen := 5000, outputDir := f.outputDir } : Task)) := by
  unfold launches
  rw [launchLoop_eq 2 f.outputDir _ (v2NumJobs f).toNat 0 (by simp),
    launchLoop_eq 3 f.outputDir _ (v3NumJobs f).toNat 0 (by simp)]
  simp

/-- The launched workers are pairwise different in format or index. -/
theorem launches_nodup (f : Flags) :
    (launches f).Nodup ∧ ∀ t ∈ launches f, (t.onionVer = 2 ∨ t.onionVer = 3) ∧
      0 ≤ t.workerID ∧ t.numAddrGen = 5000 ∧ t.outputDir = f.outputDir := by
  rw [launches_all f]
  constructor
  · rw [List.nodup_append]
    refine ⟨?_, ?_, ?_⟩
    · refine List.Nodup.map ?_ (List.nodup_range _)
      intro i j h
      simpa using h
    · refine List.Nodup.map ?_ (List.nodup_range _)
      intro i j h
      simpa using h
    · intro t h2 h3
      obtain ⟨i, _, rfl⟩ := List.mem_map.1 h2
      obtain ⟨j, _, hj⟩ := List.mem_map.1 h3
      simp at hj
  · intro t ht
    rcases List.mem_append.1 ht with h | h
    · obtain ⟨i, _, rfl⟩ := List.mem_map.1 h
      exact ⟨Or.inl rfl, by simp, rfl, rfl⟩
    · obtain ⟨i, _, rfl⟩ := List.mem_map.1 h
      exact ⟨Or.inr rfl, by simp, rfl, rfl⟩

/-- C18: no two launched workers write to the same file.  The map from (format,
worker index) to the file name built by `worker` is injective for the formats 2
and 3 and all indices `id ≥ 0`, those of more than four digits included; hence the
names of the workers launched in one run are pairwise distinct, and so are their
paths when `filepath.Join` keeps distinct names in one directory apart. -/
theorem addrFileName_distinct (v1 v2 id1 id2 : Int) (hv1 : v1 = 2 ∨ v1 = 3)
    (hv2 : v2 = 2 ∨ v2 = 3) (h1 : 0 ≤ id1) (h2 : 0 ≤ id2) (hne : v1 ≠ v2 ∨ id1 ≠ id2) :
    addrFileName v1 id1 ≠ addrFileName v2 id2 ∧
    (∀ f : Flags, ((launches f).map (fun t => addrFileName t.onionVer t.workerID)).Nodup) ∧
    (∀ (ρ κ : Type) (L : Lib ρ κ) (f : Flags),
      (∀ a b, L.Join f.outputDir a = L.Join f.outputDir b → a = b) →
      ((launches f).map (fun t => addrFilePath L t.outputDir t.onionVer t.workerID)).Nodup) := by
  have hnames : ∀ (f : Flags), ∀ x ∈ launches f, ∀ y ∈ launches f,
      addrFileName x.onionVer x.workerID = addrFileName y.onionVer y.workerID → x = y := by
    intro f x hx y hy h
    obtain ⟨xv, xi, xn, xd⟩ := (launches_nodup f).2 x hx
    obtain ⟨yv, yi, yn, yd⟩ := (launches_nodup f).2 y hy
    obtain ⟨ev, ei⟩ := addrFileName_inj _ _ _ _ xv yv xi yi h
    cases x; cases y
    simp_all
  refine ⟨?_, ?_, ?_⟩
  · intro h
    obtain ⟨ev, ei⟩ := addrFileName_inj v1 v2 id1 id2 hv1 hv2 h1 h2 h
    rcases hne with h' | h'
    · exact h' ev
    · exact h' ei
  · intro f
    exact List.Nodup.map_on (hnames f) (launches_nodup f).1
  · intro ρ κ L f hJ
    refine List.Nodup.map_on ?_ (launches_nodup f).1
    intro x hx y hy h
    obtain ⟨xv, _, _, xd⟩ := (launches_nodup f).2 x hx
    obtain ⟨yv, _, _, yd⟩ := (launches_nodup f).2 y hy
    have px : addrFilePath L x.outputDir x.onionVer x.workerID =
        L.Join f.outputDir (addrFileName x.onionVer x.workerID) := by
      rcases xv with e | e <;> simp [addrFilePath, e, xd]
    have py : addrFilePath L y.outputDir y.onionVer y.workerID =
        L.Join f.outputDir (addrFileName y.onionVer y.workerID) := by
      rcases yv with e | e <;> simp [addrFilePath, e, yd]
    rw [px, py] at h
    exact hnames f x hx y hy (hJ _ _ h)

/-- C18 applied to the V2 workers 1000 and 10000, whose names are
`v2_1000.addr` and `v2_10000.addr`. -/
theorem addrFileName_distinct_witness :
    ((2 : Int) = 2 ∨ (2 : Int) = 3) ∧ (0 : Int) ≤ 1000 ∧ (0 : Int) ≤ 10000 ∧
    ((2 : Int) ≠ 2 ∨ (1000 : Int) ≠ 10000) ∧
    addrFileName 2 1000 ≠ addrFileName 2 10000 :=
  ⟨Or.inl rfl, by decide, by decide, Or.inr (by decide),
    (addrFileName_distinct 2 2 1000 10000 (Or.inl rfl) (Or.inl rfl) (by decide) (by decide)
      (Or.inr (by decide))).1⟩

/-! ## Theorems: a negative total count -/

/-- C19: for a negative total count that is a multiple of 5000 and with a format
selected, `main` passes the multiple-of-5000 check, computes a negative number of
jobs for each selected format, launches no worker, writes no file and returns
normally, without an error; the state is unchanged. -/
theorem main_negative {ρ κ : Type} (L : Lib ρ κ) (f : Flags) (w : World ρ κ)
    (hneg : f.numAddr < 0) (hd : (5000 : Int) ∣ f.numAddr) (hsel : f.v2 = true ∨ f.v3 = true) :
    Int.tmod f.numAddr 5000 = 0 ∧
    (f.v2 = true → v2NumJobs f < 0) ∧ (f.v3 = true → v3NumJobs f < 0) ∧
    launches f = [] ∧ main L f w = (.ok (), w) ∧
    (main L f w).2.spawned = w.spawned ∧ (main L f w).2.files = w.files := by
  have hm : Int.tmod f.numAddr 5000 = 0 := Int.dvd_iff_tmod_eq_zero.1 hd
  have hq : Int.tdiv f.numAddr 5000 < 0 := by
    have := Int.tmod_add_tdiv f.numAddr 5000
    omega
  have hl : launches f = [] := by
    rw [launches_all f]
    have h2 : (v2NumJobs f).toNat = 0 := by
      unfold v2NumJobs; split <;> omega
    have h3 : (v3NumJobs f).toNat = 0 := by
      unfold v3NumJobs; split <;> omega
    rw [h2, h3]
    rfl
  have hmain : main L f w = (.ok (), w) := by
    rcases main_cases L f w with ⟨h2, h3, _⟩ | ⟨_, hnd, _⟩ | ⟨_, _, hr⟩
    · rcases hsel with h | h <;> simp_all
    · exact absurd hd hnd
    · rw [hr, hl]
      simp [runWorkers]
  refine ⟨hm, ?_, ?_, hl, hmain, by rw [hmain], by rw [hmain]⟩
  · intro h
    simp only [v2NumJobs, h, if_true]
    exact hq
  · intro h
    simp only [v3NumJobs, h, if_true]
    exact hq

/-- C19 applied to `-numAddr -5000` with V2 selected: the job count is `-1`. -/
theorem main_negative_witness :
    (-5000 : Int) < 0 ∧ (5000 : Int) ∣ -5000 ∧ v2NumJobs ⟨true, false, -5000, "out"⟩ = -1 ∧
    launches ⟨true, false, -5000, "out"⟩ = [] ∧
    main sampleLib ⟨true, false, -5000, "out"⟩ sampleWorld = (.ok (), sampleWorld) :=
  have h := main_negative sampleLib ⟨true, false, -5000, "out"⟩ sampleWorld (by decide)
    (by decide) (Or.inl rfl)
  ⟨by decide, by decide, by decide, h.2.2.2.1, h.2.2.2.2.1⟩

/-! ## Theorems: the last character of a V3 address -/

/-- C20: every V3 address returned by `genOnionV3` ends with the character `'d'`
(byte 100).  The 35 bytes are exactly 56 groups of five bits, the last group is
the low five bits of the version byte 3, and the symbol for the value 3 is `'D'`,
lower-cased to `'d'`. -/
theorem genOnionV3_lastChar {ρ κ : Type} (L : Lib ρ κ) (w : World ρ κ)
    (pubKey privKey : List Nat) (k : κ)
    (hg : L.GenerateKey w.entropy = (.ok (pubKey, privKey), k)) (hk : pubKey.length = 32) :
    35 * 8 = 56 * 5 ∧ encodeSym (3 &&& 0x1F) = 68 ∧ ToLower [68] = [100] ∧
    ∃ addr, (genOnionV3 L w).1 = .ok addr ∧ addr.length = 56 ∧ addr[55]? = some 100 ∧
      addr.getLast? = some 100 := by
  have hcs : ((L.Sum256 (bytesOf ".onion checksum" ++ pubKey ++ [3])).take 2).length = 2 := by
    rw [List.length_take, L.Sum256_size]; decide
  obtain ⟨p30, p31, c0, c1, _, _, hs⟩ := split35 pubKey _ hk hcs
  obtain ⟨he, hl⟩ := encodeBytes_35 pubKey p30 p31 c0 c1 hk
  have hsym : encodeSym (3 &&& 0x1F) = 68 := by decide
  have h55 : (ToLower (encodeBytes (pubKey.take 30 ++ [p30, p31, c0, c1, 3])))[55]? =
      some 100 := by
    rw [he, ToLower, List.map_append,
      List.getElem?_append_right (by rw [List.length_map, hl]; decide), List.length_map, hl]
    simp only [unpack, List.map_cons, List.map_nil, hsym]
    rfl
  have hlen : (ToLower (encodeBytes (pubKey.take 30 ++ [p30, p31, c0, c1, 3]))).length = 56 := by
    rw [he, ToLower, List.length_map, List.length_append, hl, List.length_map, unpack_length]
  refine ⟨by decide, hsym, by decide, _, ?_, hlen, h55, ?_⟩
  · rw [genOnionV3_eq L w pubKey privKey k hg hk, hs]
  · rw [List.getLast?_eq_getElem?, hlen]
    exact h55

/-- C20 applied to the fourth key of the sample key generator. -/
theorem genOnionV3_lastChar_witness :
    sampleLib.GenerateKey 3 = (.ok (sampleKey 3, List.replicate 64 3), 4) ∧
    (sampleKey 3).length = 32 ∧
    ∃ addr, (genOnionV3 sampleLib { sampleWorld with entropy := 3 }).1 = .ok addr ∧
      addr.length = 56 ∧ addr[55]? = some 100 ∧ addr.getLast? = some 100 :=
  ⟨rfl, sampleKey_length 3,
    (genOnionV3_lastChar sampleLib { sampleWorld with entropy := 3 } (sampleKey 3)
      (List.replicate 64 3) 4 rfl (sampleKey_length 3)).2.2.2⟩

end GenOnion
